import Mathlib

/-!
Verification development for `cargo-gc-target`, a garbage collector for the
cargo build-output tree.  The definitions below are shallow embeddings of the
program's source files:

* `src/cargo_lto.rs` — the LTO-requirement propagator (`generate`/`calculate`)
  together with its merge operation on `Lto` values;
* `src/metadata.rs` — the fingerprint ("metadata") engine;
* `src/main.rs` — the garbage-collection pass over the output tree
  (`gc_workspace`, `gc_artifects`, `remove_recursive`).

Machine hashes are modelled as `Nat`, filesystem trees as an inductive type,
and fallible filesystem operations return `Except`.  Functions that recurse
over a graph that is only dynamically known to be acyclic take an explicit
fuel parameter.
-/

/- ------------------------------------------------------------------ -/
/- Part 1: the LTO lattice and propagator, from `src/cargo_lto.rs`.    -/
/- ------------------------------------------------------------------ -/

/-- Crate types, from `CrateType` in `src/unit_graph.rs`. -/
inductive CrateType where
  | bin
  | lib
  | rlib
  | dylib
  | cdylib
  | staticlib
  | procMacro
  | other (s : String)
deriving DecidableEq, Repr

/-- Modelled from the spec: cargo's `CrateType::can_lto` (the crate types
that "support LTO" in §4.3).  This predicate lives in the external cargo
library, not under `src/`; the table is the one cargo documents: final link
products (`bin`, `staticlib`, `cdylib`) can run LTO. -/
def CrateType.canLto : CrateType → Bool
  | .bin | .staticlib | .cdylib => true
  | _ => false

/-- Modelled from the spec: cargo's `CrateType::is_dynamic` ("is a dynamic
crate type" in §4.3).  External cargo library code; `dylib`, `cdylib` and
`procMacro` are the dynamic crate types. -/
def CrateType.isDynamic : CrateType → Bool
  | .dylib | .cdylib | .procMacro => true
  | _ => false

/-- The profile-level LTO setting, `Lto` in `src/unit_graph.rs`
(`profiles::Lto` in `src/cargo_lto.rs`). -/
inductive ProfilesLto where
  | off
  | bool (b : Bool)
  | named (s : String)
deriving DecidableEq, Repr

/-- The computed LTO requirement, cargo's `compiler::Lto` as matched on by
`src/cargo_lto.rs`: `Off`, `OnlyObject`, `OnlyBitcode`, `ObjectAndBitcode`,
`Run(Option<InternedString>)`. -/
inductive Lto where
  | off
  | onlyObject
  | onlyBitcode
  | objectAndBitcode
  | run (s : Option String)
deriving DecidableEq, Repr

/-- The merge of a newly computed requirement `lto` with the previously
stored requirement `old`, from the `Entry::Occupied` arm of `calculate` in
`src/cargo_lto.rs` (lines 113–144).  The match arms are listed in the
source's order; Rust `match` and Lean `match` both take the first arm that
fits, so the function is arm-for-arm the source's. -/
def ltoMerge (lto old : Lto) : Lto :=
  match lto, old with
  | .onlyBitcode, .onlyBitcode => .onlyBitcode
  | .onlyObject, .onlyObject => .onlyObject
  | .run s, _ => .run s
  | _, .run s => .run s
  | .off, _ => .off
  | _, .off => .off
  | .objectAndBitcode, _ => .objectAndBitcode
  | _, .objectAndBitcode => .objectAndBitcode
  | .onlyObject, .onlyBitcode => .objectAndBitcode
  | .onlyBitcode, .onlyObject => .objectAndBitcode

/-- Compile modes, from `CompileMode` in `src/unit_graph.rs`; the `check`
and `doc` payloads are cargo's (the serialized form in `unit_graph.rs` notes
they exist but are not serialized). -/
inductive CompileMode where
  | test
  | build
  | check (test : Bool)
  | bench
  | doc (deps : Bool)
  | doctest
  | runCustomBuild
deriving DecidableEq, Repr

/-- The unit data consulted by the LTO propagator: `unit.target.for_host()`,
`unit.mode`, `unit.target.rustc_crate_types()` and `unit.profile.lto`. -/
structure LUnit where
  forHost : Bool
  mode : CompileMode
  crateTypes : List CrateType
  profileLto : ProfilesLto
deriving DecidableEq, Repr

/-- A unit graph with designated roots, as consumed by `generate` in
`src/cargo_lto.rs` (`bcx.roots` and `bcx.unit_graph`).  Units are identified
by their index; `deps.get? u` lists the dependency indices of unit `u`. -/
structure LGraph where
  units : List LUnit
  deps : List (List Nat)
  roots : List Nat

/-- Dependencies of unit `u` (`bcx.unit_graph[unit]`). -/
def LGraph.depsOf (g : LGraph) (u : Nat) : List Nat :=
  (g.deps.get? u).getD []

/-- `needs_object` from `src/cargo_lto.rs`: whether any of these crate types
need object code. -/
def needs_object (crateTypes : List CrateType) : Bool :=
  crateTypes.any fun k => k.canLto || k.isDynamic

/-- `lto_when_needs_object` from `src/cargo_lto.rs`: the setting when this
unit needs object code. -/
def lto_when_needs_object (crateTypes : List CrateType) : Lto :=
  if crateTypes.all (· = CrateType.dylib) then .onlyObject else .objectAndBitcode

/-- The crate-type list used by `calculate` (`src/cargo_lto.rs` lines 61–72):
test/bench/doctest units are treated as a `Bin`. -/
def modeCrateTypes (u : LUnit) : List CrateType :=
  match u.mode with
  | .test | .bench | .doctest => [CrateType.bin]
  | _ => u.crateTypes

/-- The requirement `calculate` computes for a unit before merging
(`src/cargo_lto.rs` lines 75–103): host units get `OnlyObject`; a unit all
of whose crate types support LTO ignores the parent and derives from its own
profile; otherwise the parent's requirement is combined with this unit's
object-code need. -/
def transfer (u : LUnit) (parentLto : Lto) : Lto :=
  let crateTypes := modeCrateTypes u
  if u.forHost then .onlyObject
  else if crateTypes.all CrateType.canLto then
    match u.profileLto with
    | .named s => .run (some s)
    | .off => .off
    | .bool true => .run none
    | .bool false => .onlyObject
  else
    match parentLto, needs_object crateTypes with
    | .run _, false => .onlyBitcode
    | .run _, true | .onlyBitcode, true => lto_when_needs_object crateTypes
    | .off, _ => .onlyObject
    | _, false | .onlyObject, true | .objectAndBitcode, true => parentLto

/-- The root initialization of `generate` (`src/cargo_lto.rs` lines 13–29).
Note it uses the unit's raw `rustc_crate_types()`, not the mode-adjusted
list. -/
def rootLto (u : LUnit) : Lto :=
  match u.profileLto with
  | .bool false | .off => .onlyObject
  | _ =>
    if u.forHost then .onlyObject
    else if needs_object u.crateTypes then lto_when_needs_object u.crateTypes
    else .onlyBitcode

/-- The propagator's map `HashMap<Unit, Lto>`, keyed by unit index (cargo
units are interned, so unit identity is index identity).  Insertion shadows;
`lookupLto` finds the most recent binding. -/
def LtoMap := List (Nat × Lto)

def lookupLto (m : LtoMap) (u : Nat) : Option Lto :=
  (List.find? (fun p => p.1 == u) m).map (·.2)

def insertLto (m : LtoMap) (u : Nat) (v : Lto) : LtoMap :=
  (u, v) :: m

/-- The loop `for dep in &bcx.unit_graph[unit] { calculate(...)? }` at the
end of `calculate` in `src/cargo_lto.rs`, abstracted over the recursive
call so that `calculate` below is structural recursion on its fuel. -/
def calcDepsF (calc1 : LtoMap → Nat → Lto → Option LtoMap) :
    LtoMap → List Nat → Lto → Option LtoMap
  | map, [], _ => some map
  | map, d :: ds', mergedLto =>
    match calc1 map d mergedLto with
    | none => none
    | some m => calcDepsF calc1 m ds' mergedLto

/-- `calculate` from `src/cargo_lto.rs` (lines 55–158), with explicit fuel
(the source recurses on a DAG; `none` means the fuel ran out or a unit index
was out of range, neither of which happens on a well-formed input). -/
def calculate (g : LGraph) : Nat → LtoMap → Nat → Lto → Option LtoMap
  | 0, _, _, _ => none
  | fuel + 1, map, u, parentLto =>
    match g.units.get? u with
    | none => none
    | some unit =>
      let lto := transfer unit parentLto
      match lookupLto map u with
      | none =>
        calcDepsF (calculate g fuel) (insertLto map u lto) (g.depsOf u) lto
      | some old =>
        let result := ltoMerge lto old
        if result = old then some map
        else calcDepsF (calculate g fuel) (insertLto map u result) (g.depsOf u)
          result

/-- The dependency loop at a given fuel level. -/
def calcDeps (g : LGraph) (fuel : Nat) (map : LtoMap) (ds : List Nat)
    (mergedLto : Lto) : Option LtoMap :=
  calcDepsF (calculate g fuel) map ds mergedLto

/-- The root loop of `generate` (`src/cargo_lto.rs` lines 10–33). -/
def generateAux (g : LGraph) (fuel : Nat) (map : LtoMap) :
    List Nat → Option LtoMap
  | [] => some map
  | r :: rs =>
    match g.units.get? r with
    | none => none
    | some unit =>
      match calculate g fuel map r (rootLto unit) with
      | none => none
      | some m => generateAux g fuel m rs

/-- `generate` from `src/cargo_lto.rs`: fold `calculate` over the roots,
starting from the empty map. -/
def generate (g : LGraph) (fuel : Nat) : Option LtoMap :=
  generateAux g fuel [] g.roots

/- ------------------------------------------------------------------ -/
/- Part 2: the output tree and the GC pass, from `src/main.rs`.        -/
/- ------------------------------------------------------------------ -/

mutual

/-- A node of the physical output tree.  `size` is what
`symlink_metadata().len()` reports for the node itself.  `removable` is the
error model: `false` makes `fs::remove_file` / `fs::remove_dir` fail for
this node (permission denied, concurrent removal, …).  A symlink records
the node it points to, which `symlink_metadata` (a no-follow call) never
inspects. -/
inductive FsNode where
  | file (size : Nat) (removable : Bool)
  | dir (size : Nat) (removable : Bool) (children : FsListing)
  | symlink (size : Nat) (removable : Bool) (target : FsNode)

/-- A directory listing: each entry carries its name as `Option String` —
`none` stands for a name that is not valid UTF-8, for which
`file_name().to_str()` returns `None` in the source. -/
inductive FsListing where
  | nil
  | cons (name : Option String) (node : FsNode) (rest : FsListing)

end

/-- Build a listing from a list of named entries. -/
def fsl : List (Option String × FsNode) → FsListing
  | [] => .nil
  | (n, c) :: rest => .cons n c (fsl rest)

/-- `DirEntry::file_type().is_file()` — a no-follow check: symlinks and
directories are not files. -/
def FsNode.isFile : FsNode → Bool
  | .file _ _ => true
  | _ => false

mutual

/-- `remove_recursive` from `src/main.rs` (lines 255–271): size the node via
no-follow metadata, recurse into real directories, then remove; under
`dry_run` sum sizes but remove nothing.  Returns the node left behind
(`none` = fully removed) and the freed-byte count or the first error. -/
def remove_recursive (dryRun : Bool) : FsNode → Option FsNode × Except Unit Nat
  | .file size rm =>
    if dryRun then (some (.file size rm), .ok size)
    else if rm then (none, .ok size)
    else (some (.file size rm), .error ())
  | .symlink size rm target =>
    if dryRun then (some (.symlink size rm target), .ok size)
    else if rm then (none, .ok size)
    else (some (.symlink size rm target), .error ())
  | .dir size rm children =>
    match removeChildren dryRun children with
    | (rest, .error e) => (some (.dir size rm rest), .error e)
    | (rest, .ok b) =>
      if dryRun then (some (.dir size rm rest), .ok (size + b))
      else if rm then (none, .ok (size + b))
      else (some (.dir size rm rest), .error ())

/-- The `for entry in fs::read_dir(path)` loop inside `remove_recursive`:
children are removed in listing order; the first error stops the walk and
leaves the remaining entries in place. -/
def removeChildren (dryRun : Bool) : FsListing → FsListing × Except Unit Nat
  | .nil => (.nil, .ok 0)
  | .cons n c cs =>
    match remove_recursive dryRun c with
    | (residual, .error e) =>
      ((match residual with
        | some c' => .cons n c' cs
        | none => cs), .error e)
    | (residual, .ok b) =>
      match removeChildren dryRun cs with
      | (rest, .error e) =>
        ((match residual with
          | some c' => .cons n c' rest
          | none => rest), .error e)
      | (rest, .ok b') =>
        ((match residual with
          | some c' => .cons n c' rest
          | none => rest), .ok (b + b'))

end

/-- The four recognized zones of a profile directory. -/
inductive Zone where
  | fingerprint
  | build
  | deps
  | top
deriving DecidableEq, Repr

/-- One call of the `remove` closure in `gc_artifects`: the zone it happened
in, the directory entry's name and the entry's node at that moment. -/
structure GcEvent where
  zone : Zone
  name : Option String
  node : FsNode

/-- The live sets, `Reachable` from `src/_collect.rs`, as consumed by
`gc_artifects`. -/
structure Reachable where
  fingerprints : List String
  builds : List String
  deps : List String
  uplifts : List String

/-- The membership test of the zone loops:
`entry.file_name().to_str().map_or(true, |name| !set.contains(name))` —
an entry whose name is not valid UTF-8 is always stale. -/
def staleName (set : List String) : Option String → Bool
  | none => true
  | some s => !set.contains s

/-- One directory sweep of `gc_artifects`: walk the listed children in
order, call `remove_recursive` on every child `shouldRemove` selects,
recording an event per call; the first removal error stops the sweep and
leaves the remaining entries untouched.  Returns the remaining children, the
events, and the freed bytes or the error. -/
def gcSweep (dryRun : Bool) (z : Zone) (shouldRemove : Option String → FsNode → Bool) :
    FsListing → FsListing × List GcEvent × Except Unit Nat
  | .nil => (.nil, [], .ok 0)
  | .cons n c cs =>
    if shouldRemove n c then
      match remove_recursive dryRun c with
      | (residual, .error e) =>
        ((match residual with
          | some c' => .cons n c' cs
          | none => cs), [⟨z, n, c⟩], .error e)
      | (residual, .ok b) =>
        match gcSweep dryRun z shouldRemove cs with
        | (rest, evs, .error e) =>
          ((match residual with
            | some c' => .cons n c' rest
            | none => rest), ⟨z, n, c⟩ :: evs, .error e)
        | (rest, evs, .ok b') =>
          ((match residual with
            | some c' => .cons n c' rest
            | none => rest), ⟨z, n, c⟩ :: evs, .ok (b + b'))
    else
      match gcSweep dryRun z shouldRemove cs with
      | (rest, evs, r) => (.cons n c rest, evs, r)

/-- First child with the given name (`dir.join(name)` resolution within the
modelled listing). -/
def findChild : FsListing → Option String → Option FsNode
  | .nil, _ => none
  | .cons m c cs, n => if m == n then some c else findChild cs n

/-- Replace the first child with the given name. -/
def setChild : FsListing → Option String → FsNode → FsListing
  | .nil, _, _ => .nil
  | .cons m c cs, n, c' =>
    if m == n then .cons m c' cs else .cons m c (setChild cs n c')

/-- The zone loop of `gc_artifects` (`src/main.rs` lines 219–235): for each
of `.fingerprint`, `build`, `deps` in order, `fs::read_dir(dir.join(subdir))?`
— a missing (or non-directory) zone child makes `read_dir` fail and the `?`
propagates the error — then sweep that zone's children against its live
set. -/
def gcZones (dryRun : Bool) (children : FsListing) :
    List (String × List String × Zone) →
    FsListing × List GcEvent × Except Unit Nat
  | [] => (children, [], .ok 0)
  | (zname, set, z) :: zs =>
    match findChild children (some zname) with
    | some (.dir zsize zrm zchildren) =>
      match gcSweep dryRun z (fun n _ => staleName set n) zchildren with
      | (rest, evs, .error e) =>
        (setChild children (some zname) (.dir zsize zrm rest), evs, .error e)
      | (rest, evs, .ok b) =>
        match gcZones dryRun (setChild children (some zname) (.dir zsize zrm rest)) zs with
        | (cs2, evs2, .error e) => (cs2, evs ++ evs2, .error e)
        | (cs2, evs2, .ok b') => (cs2, evs ++ evs2, .ok (b + b'))
    | _ => (children, [], .error ())

/-- The uplifted-binaries condition of `gc_artifects` (lines 242–247):
delete a top-level entry iff it is a regular file, its name is not
`.cargo-lock`, and its name is absent from the uplift set (or not valid
UTF-8). -/
def upliftStale (uplifts : List String) (n : Option String) (c : FsNode) : Bool :=
  c.isFile && n != some ".cargo-lock" && staleName uplifts n

/-- `gc_artifects` from `src/main.rs` (lines 181–253) restricted to its
filesystem effect: sweep the three zone subdirectories against their live
sets, then sweep the top-level entries against the uplift set.  Returns the
resulting profile directory, the remove events in order, and the freed
bytes or the first error (which the source propagates with `?`). -/
def gc_artifects (live : Reachable) (dryRun : Bool) (root : FsNode) :
    FsNode × List GcEvent × Except Unit Nat :=
  match root with
  | .dir size rm children =>
    match gcZones dryRun children
        [(".fingerprint", live.fingerprints, .fingerprint),
         ("build", live.builds, .build),
         ("deps", live.deps, .deps)] with
    | (cs1, evs1, .error e) => (.dir size rm cs1, evs1, .error e)
    | (cs1, evs1, .ok b1) =>
      match gcSweep dryRun .top (upliftStale live.uplifts) cs1 with
      | (cs2, evs2, .error e) => (.dir size rm cs2, evs1 ++ evs2, .error e)
      | (cs2, evs2, .ok b2) => (.dir size rm cs2, evs1 ++ evs2, .ok (b1 + b2))
  | other => (other, [], .error ())

/-- One profile block of the `check` closure (`src/main.rs` lines 156–163):
`let p = dir.join(pname); if p.is_dir() { collected_bytes +=
gc_artifects(...)? }` — a missing or non-directory profile child is
skipped. -/
def checkStep (live : Option String → String → Reachable) (dryRun : Bool)
    (target : Option String) (children : FsListing) (pname profile : String) :
    FsListing × List GcEvent × Except Unit Nat :=
  match findChild children (some pname) with
  | some (p@(.dir _ _ _)) =>
    match gc_artifects (live target profile) dryRun p with
    | (p', evs, .error e) => (setChild children (some pname) p', evs, Except.error e)
    | (p', evs, .ok b) => (setChild children (some pname) p', evs, Except.ok b)
  | _ => (children, [], Except.ok 0)

/-- The `check` closure of `gc_workspace` (lines 155–165): run
`gc_artifects` on the `debug` and `release` children when they are
directories (`p.is_dir()`); a missing profile directory is skipped, an
error from either pass propagates. -/
def checkDir (live : Option String → String → Reachable) (dryRun : Bool)
    (target : Option String) (dirNode : FsNode) :
    FsNode × List GcEvent × Except Unit Nat :=
  match dirNode with
  | .dir size rm children =>
    match checkStep live dryRun target children "debug" "dev" with
    | (cs1, evs1, .error e) => (.dir size rm cs1, evs1, .error e)
    | (cs1, evs1, .ok b1) =>
      match checkStep live dryRun target cs1 "release" "release" with
      | (cs2, evs2, .error e) => (.dir size rm cs2, evs1 ++ evs2, .error e)
      | (cs2, evs2, .ok b2) => (.dir size rm cs2, evs1 ++ evs2, .ok (b1 + b2))
  | other => (other, [], .ok 0)

/-- The platform loop of `gc_workspace` (lines 168–176): for every child of
the output root whose UTF-8 name contains a hyphen, run the `check` closure
on it; the first error aborts the loop (`check(...)?`). -/
def gcTriples (live : Option String → String → Reachable) (dryRun : Bool) :
    FsListing → FsListing × List GcEvent × Except Unit Nat
  | .nil => (.nil, [], .ok 0)
  | .cons n c cs =>
    let isTriple := match n with
      | some s => s.contains '-'
      | none => false
    if isTriple then
      match checkDir live dryRun n c with
      | (c', evs, .error e) => (.cons n c' cs, evs, .error e)
      | (c', evs, .ok b) =>
        match gcTriples live dryRun cs with
        | (rest, evs2, .error e) => (.cons n c' rest, evs ++ evs2, .error e)
        | (rest, evs2, .ok b') => (.cons n c' rest, evs ++ evs2, .ok (b + b'))
    else
      match gcTriples live dryRun cs with
      | (rest, evs2, r) => (.cons n c rest, evs2, r)

/-- `gc_workspace` from `src/main.rs` (lines 151–179): first the host pass
(`check(&None, &target_dir)?` — its error aborts the whole run), then the
platform-triple subdirectories in listing order.  `live` abstracts
`collect_workspace_units`, which recomputes the live sets per (target,
profile) pass. -/
def gc_workspace (live : Option String → String → Reachable) (dryRun : Bool)
    (root : FsNode) : FsNode × List GcEvent × Except Unit Nat :=
  match checkDir live dryRun none root with
  | (t1, evs1, .error e) => (t1, evs1, .error e)
  | (t1, evs1, .ok b1) =>
    match t1 with
    | .dir size rm children =>
      match gcTriples live dryRun children with
      | (cs, evs2, .error e) => (.dir size rm cs, evs1 ++ evs2, .error e)
      | (cs, evs2, .ok b2) => (.dir size rm cs, evs1 ++ evs2, .ok (b1 + b2))
    | other => (other, evs1, .error ())

/- ------------------------------------------------------------------ -/
/- Part 3: the fingerprint engine, from `src/metadata.rs`.             -/
/- ------------------------------------------------------------------ -/

/-- The token stream fed to cargo's `StableHasher` is modelled as a
`List Nat`; `stableFinish` is the `finish()` digest (an FNV-style 64-bit
fold — any function of the token stream works for the properties below). -/
def stableFinish (tokens : List Nat) : Nat :=
  tokens.foldl (fun h t => (h * 1099511628211 + t) % 2 ^ 64) 14695981039346656037

/-- Hash tokens of a string value. -/
def encodeStr (s : String) : List Nat :=
  s.length :: s.data.map Char.toNat

/-- Hash tokens of a list of values. -/
def encodeList (enc : α → List Nat) (xs : List α) : List Nat :=
  xs.length :: xs.foldr (fun x acc => enc x ++ acc) []

/-- Hash token of an `Option<Metadata>` dependency entry.  `none ↦ 0`,
`some m ↦ m + 1`: this embedding is strictly order-preserving for Rust's
`Ord` on `Option<u64>` (`None` sorts before every `Some`), so sorting the
encoded values is sorting the originals. -/
def encodeOptMeta : Option Nat → Nat
  | none => 0
  | some m => m + 1

/-- Hash tokens of a computed LTO requirement (`cx.lto[unit]`). -/
def encodeLto : Lto → List Nat
  | .off => [0]
  | .onlyObject => [1]
  | .onlyBitcode => [2]
  | .objectAndBitcode => [3]
  | .run none => [4]
  | .run (some s) => 5 :: encodeStr s

/-- Hash tokens of the compile mode (`unit.mode.hash`). -/
def encodeMode : CompileMode → List Nat
  | .test => [0]
  | .build => [1]
  | .check t => [2, if t then 1 else 0]
  | .bench => [3]
  | .doc d => [4, if d then 1 else 0]
  | .doctest => [5]
  | .runCustomBuild => [6]

/-- `mode.is_doc_test()`. -/
def CompileMode.isDocTest : CompileMode → Bool
  | .doctest => true
  | _ => false

/-- `mode.is_any_test()` (cargo: `Test | Bench | Check {test:true} |
Doctest`). -/
def CompileMode.isAnyTest : CompileMode → Bool
  | .test | .bench | .doctest => true
  | .check t => t
  | _ => false

/-- `mode.is_check()`. -/
def CompileMode.isCheck : CompileMode → Bool
  | .check _ => true
  | _ => false

/-- Substring test (Rust `str::contains`): `pat` occurs in `s` iff splitting
on it produces more than one part. -/
def strContains (s pat : String) : Bool :=
  (s.splitOn pat).length != 1

/-- The unit data consulted by `compute_metadata` / `should_use_metadata`.
Structured fields that the source only ever feeds whole into the hasher
(`unit.profile`, `unit.kind`, `unit.target.kind()`, the package's stable
hash) are modelled as opaque `Nat` token values. -/
structure HUnit where
  pkgStableHash : Nat
  features : List String
  profileHash : Nat
  mode : CompileMode
  kindHash : Nat
  targetName : String
  targetKindHash : Nat
  isStd : Bool
  isMember : Bool
  isDylib : Bool
  isCdylib : Bool
  isExecutable : Bool
  kindShortName : String
  pkgIsPath : Bool
  deps : List Nat

/-- The ambient build context consulted by the fingerprint engine: the
per-unit LTO map, the rustc version data, the workspace wrapper and the
`__CARGO_DEFAULT_LIB_METADATA` channel override. -/
structure HCtx where
  units : List HUnit
  lto : Nat → Lto
  versPre : List String
  separateNightlies : Bool
  verboseVersion : String
  host : String
  workspaceWrapper : Option String
  channelEnv : Option String

/-- `should_use_metadata` from `src/metadata.rs` (lines 129–176). -/
def should_use_metadata (cx : HCtx) (u : HUnit) : Bool :=
  if u.mode.isDocTest then false
  else if u.mode.isAnyTest || u.mode.isCheck then true
  else if (u.isDylib || u.isCdylib
        || (u.isExecutable && u.kindShortName.startsWith "wasm32-")
        || (u.isExecutable && strContains u.kindShortName "msvc")
        || (u.isExecutable && strContains u.kindShortName "-apple-"))
      && u.pkgIsPath && cx.channelEnv == none then false
  else true

/-- `hash_rustc_version` from `src/metadata.rs` (lines 96–126): the full
verbose version on a stable channel (empty pre-release) or when
`separate_nightlies` is set; otherwise only the channel name (`pre[0]`) and
the host triple. -/
def hash_rustc_version (cx : HCtx) : List Nat :=
  match cx.versPre with
  | [] => encodeStr cx.verboseVersion
  | p :: _ =>
    if cx.separateNightlies then encodeStr cx.verboseVersion
    else encodeStr p ++ encodeStr cx.host

/-- `METADATA_VERSION` (cargo's format-version constant). -/
def METADATA_VERSION : Nat := 2

/-- `compute_metadata`/`metadata_of` from `src/metadata.rs` (lines 3–94),
with explicit fuel (`none` on exhaustion; the source's recursion is over a
DAG).  The source memoizes `metadata_of` in a per-traversal map whose
entries are written exactly once with the value this recursion computes, so
the memoized function and this plain recursion agree; the cache is dropped
here.  The hashed components appear in the source's order: format version;
package stable hash; features; the **sorted** list of the dependencies'
recursively computed identifiers; profile; mode; this unit's LTO
requirement; compile kind; target name and kind; the rustc version
fingerprint; the workspace wrapper (members only); the channel override
when present; `is_std`. -/
def metadata_of (cx : HCtx) : Nat → Nat → Option Nat
  | 0, _ => none
  | fuel + 1, u =>
    match cx.units.get? u with
    | none => none
    | some unit =>
      if !should_use_metadata cx unit then none
      else
        let depsMeta :=
          (unit.deps.map (fun d => encodeOptMeta (metadata_of cx fuel d))).mergeSort
            Nat.ble
        some (stableFinish
          ([METADATA_VERSION, unit.pkgStableHash]
            ++ encodeList encodeStr unit.features
            ++ encodeList (fun n => [n]) depsMeta
            ++ [unit.profileHash]
            ++ encodeMode unit.mode
            ++ encodeLto (cx.lto u)
            ++ [unit.kindHash]
            ++ encodeStr unit.targetName
            ++ [unit.targetKindHash]
            ++ hash_rustc_version cx
            ++ (if unit.isMember then
                  match cx.workspaceWrapper with
                  | some p => encodeStr p
                  | none => []
                else [])
            ++ (match cx.channelEnv with
                | some c => encodeStr c
                | none => [])
            ++ [if unit.isStd then 1 else 0]))

/-- The non-unit ("global") inputs of the fingerprint: everything in the
context except the unit table. -/
def globalsEq (cx₁ cx₂ : HCtx) : Prop :=
  cx₁.lto = cx₂.lto ∧ cx₁.versPre = cx₂.versPre ∧
  cx₁.separateNightlies = cx₂.separateNightlies ∧
  cx₁.verboseVersion = cx₂.verboseVersion ∧ cx₁.host = cx₂.host ∧
  cx₁.workspaceWrapper = cx₂.workspaceWrapper ∧ cx₁.channelEnv = cx₂.channelEnv

/-- Two contexts agree on the depth-`fuel` transitive dependency closure of
unit `u`: the unit data coincides and, recursively, so does every
dependency's closure. -/
def agreeTo (cx₁ cx₂ : HCtx) : Nat → Nat → Prop
  | 0, _ => True
  | fuel + 1, u =>
    cx₁.units.get? u = cx₂.units.get? u ∧
    ∀ unit, cx₁.units.get? u = some unit → ∀ d ∈ unit.deps, agreeTo cx₁ cx₂ fuel d

/-- Unit data equal in everything except the order of the dependency edge
list, which is a permutation. -/
def sameButDepOrder (u₁ u₂ : HUnit) : Prop :=
  u₁.pkgStableHash = u₂.pkgStableHash ∧ u₁.features = u₂.features ∧
  u₁.profileHash = u₂.profileHash ∧ u₁.mode = u₂.mode ∧
  u₁.kindHash = u₂.kindHash ∧ u₁.targetName = u₂.targetName ∧
  u₁.targetKindHash = u₂.targetKindHash ∧ u₁.isStd = u₂.isStd ∧
  u₁.isMember = u₂.isMember ∧ u₁.isDylib = u₂.isDylib ∧
  u₁.isCdylib = u₂.isCdylib ∧ u₁.isExecutable = u₂.isExecutable ∧
  u₁.kindShortName = u₂.kindShortName ∧ u₁.pkgIsPath = u₂.pkgIsPath ∧
  u₁.deps.Perm u₂.deps

/- ------------------------------------------------------------------ -/
/- Part 4: derived notions used to state and prove the claims.         -/
/- ------------------------------------------------------------------ -/

/-- The live set a zone's sweep is checked against. -/
def zoneSet (live : Reachable) : Zone → List String
  | .fingerprint => live.fingerprints
  | .build => live.builds
  | .deps => live.deps
  | .top => live.uplifts

mutual

/-- Two trees that differ at most in what their symlinks point to. -/
def symAgnostic : FsNode → FsNode → Prop
  | .file s r, .file s' r' => s = s' ∧ r = r'
  | .symlink s r _, .symlink s' r' _ => s = s' ∧ r = r'
  | .dir s r cs, .dir s' r' cs' => s = s' ∧ r = r' ∧ symListAg cs cs'
  | _, _ => False

/-- Pointwise `symAgnostic` on directory listings. -/
def symListAg : FsListing → FsListing → Prop
  | .nil, .nil => True
  | .cons n c rest, .cons n' c' rest' =>
    n = n' ∧ symAgnostic c c' ∧ symListAg rest rest'
  | _, _ => False

end

/-- Listings that agree on names, on file/symlink entries exactly, and on
directory entries up to their contents (directory size and removability
equal).  The top-level sweep cannot distinguish such listings. -/
def topAgree : FsListing → FsListing → Prop
  | .nil, .nil => True
  | .cons n c rest, .cons n' c' rest' =>
    n = n' ∧
    (c = c' ∨ match c, c' with
      | .dir s r _, .dir s' r' _ => s = s' ∧ r = r'
      | _, _ => False) ∧
    topAgree rest rest'
  | _, _ => False

/-- Every entry of the listing fails the removal predicate. -/
def allEntries (P : Option String → FsNode → Bool) : FsListing → Prop
  | .nil => True
  | .cons n c cs => P n c = false ∧ allEntries P cs

/-- Reachability along dependency edges. -/
inductive GReaches (g : LGraph) : Nat → Nat → Prop where
  | dep {u d} : d ∈ g.depsOf u → GReaches g u d
  | tail {u d w} : d ∈ g.depsOf u → GReaches g d w → GReaches g u w

/-- The unit graph is a DAG (the spec's standing invariant). -/
def LAcyclic (g : LGraph) : Prop := ∀ u, ¬ GReaches g u u

/-- `RootPath g u π`: `π` is a dependency path that starts at a designated
root and ends at `u`. -/
inductive RootPath (g : LGraph) : Nat → List Nat → Prop where
  | root {r} : r ∈ g.roots → RootPath g r [r]
  | step {u d π} : RootPath g u π → d ∈ g.depsOf u → RootPath g d (π ++ [d])

/-- The requirement pushed along a path: starting from `v`, apply each
unit's `transfer` in order (`none` if a unit index is invalid). -/
def pathValue (g : LGraph) : List Nat → Lto → Option Lto
  | [], v => some v
  | w :: ws, v =>
    match g.units.get? w with
    | none => none
    | some unit => pathValue g ws (transfer unit v)

/-- The requirement pushed along a root-to-unit path, seeded with the
root's initialization value. -/
def rootPathValue (g : LGraph) (π : List Nat) : Option Lto :=
  match π with
  | [] => none
  | r :: _ =>
    match g.units.get? r with
    | none => none
    | some runit => pathValue g π (rootLto runit)

/-- The three requirement values a non-host unit with a mixed crate-type
list can be assigned. -/
def Rdom (v : Lto) : Prop :=
  v = .onlyObject ∨ v = .onlyBitcode ∨ v = .objectAndBitcode

/-- A unit whose computed requirement ignores the parent's value: host
units and units all of whose (mode-adjusted) crate types support LTO. -/
def constUnit (u : LUnit) : Bool :=
  u.forHost || (modeCrateTypes u).all CrateType.canLto

/-- Every value stored in the propagator's map is the unit's fixed value
(for `constUnit`s) or one of the three `Rdom` values. -/
def MapInv (g : LGraph) (m : LtoMap) : Prop :=
  ∀ u v, lookupLto m u = some v → ∃ unit, g.units.get? u = some unit ∧
    (if constUnit unit then v = transfer unit Lto.off else Rdom v)

/-- `Stable lto old`: merging the newly computed `lto` into the stored
`old` changes nothing (the propagator's stop condition). -/
def Stable (lto old : Lto) : Prop := ltoMerge lto old = old

/-- All dependency edges are settled, except those the predicate `X`
excuses (edges whose push is still pending on the recursion stack): a
stored unit's dependency is stored and stable under the parent's push. -/
def EdgesOKexc (g : LGraph) (m : LtoMap) (X : Nat → Nat → Prop) : Prop :=
  ∀ u v, lookupLto m u = some v → ∀ d ∈ g.depsOf u, ¬ X u d →
    ∃ ud vd, g.units.get? d = some ud ∧ lookupLto m d = some vd ∧
      Stable (transfer ud v) vd

/-- Map growth: stored units stay stored, and anything stable under the old
value is stable under the new one. -/
def MapGrow (m m' : LtoMap) : Prop :=
  ∀ u v, lookupLto m u = some v →
    ∃ v', lookupLto m' u = some v' ∧ ∀ x, Stable x v → Stable x v'

/-- `MapSub m m₂`: every value stored in `m` is stored in `m₂` at a value
that absorbs it (pointwise domination in the merge-absorption order). -/
def MapSub (m m₂ : LtoMap) : Prop :=
  ∀ w v, lookupLto m w = some v →
    ∃ v₂, lookupLto m₂ w = some v₂ ∧ Stable v v₂

/- ------------------------------------------------------------------ -/
/- Part 5: concrete inputs for counterexamples and witnesses.          -/
/- ------------------------------------------------------------------ -/

/-- A four-unit diamond: two roots (a host binary and an rlib), a shared
rlib `2`, and a dylib leaf `3`. -/
def g4 : LGraph where
  units :=
    [⟨true, .build, [.bin], .bool true⟩,
     ⟨false, .build, [.rlib], .bool true⟩,
     ⟨false, .build, [.rlib], .bool true⟩,
     ⟨false, .build, [.dylib], .bool true⟩]
  deps := [[2], [2], [3], []]
  roots := [0, 1]

/-- Topological rank witnessing that `g4` is a DAG. -/
def rank4 : Nat → Nat
  | 2 => 1
  | 3 => 2
  | _ => 0

/-- The diamond `g4` with its root list traversed in the opposite order. -/
def g4p : LGraph where
  units :=
    [⟨true, .build, [.bin], .bool true⟩,
     ⟨false, .build, [.rlib], .bool true⟩,
     ⟨false, .build, [.rlib], .bool true⟩,
     ⟨false, .build, [.dylib], .bool true⟩]
  deps := [[2], [2], [3], []]
  roots := [1, 0]

/-- Empty live sets: everything on disk is stale. -/
def live0 : Reachable := ⟨[], [], [], []⟩

/-- A profile directory with no `.fingerprint` child at all. -/
def t6 : FsNode := .dir 4096 true .nil

/-- A profile directory whose only zone child is `deps`. -/
def t6b : FsNode := .dir 4096 true (fsl [(some "deps", .dir 1 true .nil)])

/-- A profile directory whose three zones exist; the fingerprint zone holds
one stale entry of the given size and removability. -/
def stProfile (rm : Bool) (sz : Nat) (nm : String) : FsNode :=
  .dir 4096 true (fsl
    [(some ".fingerprint", .dir 4096 true (fsl [(some nm, .file sz rm)])),
     (some "build", .dir 4096 true .nil),
     (some "deps", .dir 4096 true .nil)])

/-- An output root with a host `debug` profile whose stale entry cannot be
removed, and a platform-triple subtree `x-y` with a removable stale
entry. -/
def t7 : FsNode :=
  .dir 4096 true (fsl
    [(some "debug", stProfile false 10 "stale1"),
     (some "x-y", .dir 4096 true (fsl [(some "debug", stProfile true 20 "stale2")]))])

/-- Live sets for `t7`: nothing is live anywhere. -/
def live7 : Option String → String → Reachable := fun _ _ => live0

/-- A well-formed profile directory holding one live and one stale entry in
every zone, plus uplifted, reserved and directory entries at top level. -/
def wfT : FsNode :=
  .dir 100 true (fsl
    [(some ".fingerprint", .dir 10 true (fsl
        [(some "pkg-live", .dir 3 true .nil),
         (some "pkg-stale", .dir 4 true (fsl [(some "f", .file 5 true)]))])),
     (some "build", .dir 10 true (fsl
        [(some "bs-live", .dir 3 true .nil),
         (some "bs-stale", .dir 6 true .nil)])),
     (some "deps", .dir 10 true (fsl
        [(some "libx.rlib", .file 7 true),
         (some "old.rlib", .file 8 true)])),
     (some "app", .file 9 true),
     (some ".cargo-lock", .file 1 true),
     (some "oldbin", .file 11 true),
     (some "examples", .dir 12 true .nil)])

/-- The live sets matching `wfT`'s live entries. -/
def liveT : Reachable :=
  ⟨["pkg-live"], ["bs-live"], ["libx.rlib"], ["app"]⟩

/-- A unit for the fingerprint witness, with the given dependency list. -/
def huRoot (ds : List Nat) : HUnit where
  pkgStableHash := 11
  features := ["feat-a"]
  profileHash := 22
  mode := .build
  kindHash := 1
  targetName := "tn"
  targetKindHash := 2
  isStd := false
  isMember := true
  isDylib := false
  isCdylib := false
  isExecutable := false
  kindShortName := "x86_64-unknown-linux-gnu"
  pkgIsPath := true
  deps := ds

/-- A leaf unit for the fingerprint witness. -/
def huLeaf (seed : Nat) : HUnit where
  pkgStableHash := seed
  features := []
  profileHash := 22
  mode := .build
  kindHash := 1
  targetName := "leaf"
  targetKindHash := 2
  isStd := false
  isMember := false
  isDylib := false
  isCdylib := false
  isExecutable := false
  kindShortName := "x86_64-unknown-linux-gnu"
  pkgIsPath := false
  deps := []

/-- A fingerprint context over the given unit table. -/
def cxOf (units : List HUnit) : HCtx where
  units := units
  lto := fun _ => Lto.onlyObject
  versPre := ["nightly"]
  separateNightlies := false
  verboseVersion := "rustc 1.52.0-nightly"
  host := "x86_64-unknown-linux-gnu"
  workspaceWrapper := none
  channelEnv := none

/-- The fingerprint witness context with dependency order `[1, 2]`. -/
def cxA : HCtx := cxOf [huRoot [1, 2], huLeaf 101, huLeaf 202]

/-- The same context with unit 0's dependency edges permuted. -/
def cxB : HCtx := cxOf [huRoot [2, 1], huLeaf 101, huLeaf 202]

/- ------------------------------------------------------------------ -/
/- Theorems.                                                           -/
/- ------------------------------------------------------------------ -/

/-- C3 counterexample: the claim says `merge(Off, y) = Off` for every `y`,
but the source's merge match tries the `Run` arms before the `Off` arms
(`src/cargo_lto.rs` lines 122–125), so merging `Off` with `Run(None)`
yields `Run(None)`, not `Off`.  (Commutativity also fails concretely:
`merge(Run("a"), Run("b")) = Run("a")` while the swapped merge gives
`Run("b")`.) -/
theorem C3_counterexample :
    ltoMerge Lto.off (Lto.run none) = Lto.run none ∧
    Lto.run none ≠ Lto.off ∧
    ltoMerge (Lto.run (some "a")) (Lto.run (some "b")) = Lto.run (some "a") ∧
    ltoMerge (Lto.run (some "b")) (Lto.run (some "a")) = Lto.run (some "b") ∧
    Lto.run (some "a") ≠ Lto.run (some "b") := by
  refine ⟨rfl, by simp, rfl, rfl, by simp⟩

/-- C3 (amended): the merge of two LTO requirements is associative and
idempotent; `merge(Run(s), y) = Run(s)` for **every** `y`, `Off`
included; `merge(Off, y) = Off` for every `y` that is not a `Run`; and the
merge is commutative except on two `Run` values with distinct payloads
(where it keeps the first argument's payload). -/
theorem C3_lto_merge_laws :
    (∀ a b c : Lto, ltoMerge (ltoMerge a b) c = ltoMerge a (ltoMerge b c)) ∧
    (∀ a : Lto, ltoMerge a a = a) ∧
    (∀ s b, ltoMerge (Lto.run s) b = Lto.run s) ∧
    (∀ b : Lto, (∀ s, b ≠ Lto.run s) → ltoMerge Lto.off b = Lto.off) ∧
    (∀ a b : Lto, ltoMerge a b = ltoMerge b a ∨
      ∃ s t, a = Lto.run s ∧ b = Lto.run t ∧ s ≠ t) := by
  refine ⟨?_, ?_, ?_, ?_, ?_⟩
  · intro a b c; cases a <;> cases b <;> cases c <;> rfl
  · intro a; cases a <;> rfl
  · intro s b; cases b <;> rfl
  · intro b h
    cases b with
    | run s => exact absurd rfl (h s)
    | off => rfl
    | onlyObject => rfl
    | onlyBitcode => rfl
    | objectAndBitcode => rfl
  · intro a b
    cases a <;> cases b <;> try (left; rfl)
    rename_i s t
    by_cases hst : s = t
    · subst hst; left; rfl
    · exact Or.inr ⟨s, t, rfl, rfl, hst⟩

/-- C3 witness: the amended off-dominance law applied at `OnlyBitcode`. -/
theorem C3_lto_merge_laws_witness :
    ltoMerge Lto.off Lto.onlyBitcode = Lto.off :=
  C3_lto_merge_laws.2.2.2.1 Lto.onlyBitcode (fun _ h => Lto.noConfusion h)

/-- Structural induction restricted to listings (the `induction` tactic
cannot use the multi-motive recursor of the mutual inductive). -/
theorem listingInd (motive : FsListing → Prop) (hnil : motive .nil)
    (hcons : ∀ n c rest, motive rest → motive (.cons n c rest)) :
    ∀ cs, motive cs
  | .nil => hnil
  | .cons n c rest => hcons n c rest (listingInd motive hnil hcons rest)

mutual

/-- Mutual structural induction over tree nodes. -/
theorem nodeListingInd (motiveN : FsNode → Prop) (motiveL : FsListing → Prop)
    (hfile : ∀ s r, motiveN (.file s r))
    (hsym : ∀ s r t, motiveN t → motiveN (.symlink s r t))
    (hdir : ∀ s r cs, motiveL cs → motiveN (.dir s r cs))
    (hnil : motiveL .nil)
    (hcons : ∀ n c rest, motiveN c → motiveL rest → motiveL (.cons n c rest)) :
    ∀ nd, motiveN nd
  | .file s r => hfile s r
  | .symlink s r t =>
    hsym s r t (nodeListingInd motiveN motiveL hfile hsym hdir hnil hcons t)
  | .dir s r cs =>
    hdir s r cs (listingNodeInd motiveN motiveL hfile hsym hdir hnil hcons cs)

/-- Mutual structural induction over listings. -/
theorem listingNodeInd (motiveN : FsNode → Prop) (motiveL : FsListing → Prop)
    (hfile : ∀ s r, motiveN (.file s r))
    (hsym : ∀ s r t, motiveN t → motiveN (.symlink s r t))
    (hdir : ∀ s r cs, motiveL cs → motiveN (.dir s r cs))
    (hnil : motiveL .nil)
    (hcons : ∀ n c rest, motiveN c → motiveL rest → motiveL (.cons n c rest)) :
    ∀ cs, motiveL cs
  | .nil => hnil
  | .cons n c rest =>
    hcons n c rest (nodeListingInd motiveN motiveL hfile hsym hdir hnil hcons c)
      (listingNodeInd motiveN motiveL hfile hsym hdir hnil hcons rest)

end

/-- Every event a sweep records carries the sweep's zone tag and an entry
the removal predicate selected. -/
theorem gcSweep_events (dry : Bool) (z : Zone)
    (P : Option String → FsNode → Bool) :
    ∀ cs, ∀ e ∈ (gcSweep dry z P cs).2.1, e.zone = z ∧ P e.name e.node = true := by
  intro cs
  induction cs using listingInd with
  | hnil => intro e he; simp [gcSweep] at he
  | hcons n c tl ih =>
    intro e he
    simp only [gcSweep] at he
    by_cases hP : P n c
    · rw [if_pos hP] at he
      rcases hrr : remove_recursive dry c with ⟨residual, res⟩
      rw [hrr] at he
      cases res with
      | error err =>
        simp at he
        subst he; exact ⟨rfl, hP⟩
      | ok b =>
        rcases hrec : gcSweep dry z P tl with ⟨rest, evs, r⟩
        rw [hrec] at he
        cases r with
        | error err =>
          simp at he
          rcases he with he | he
          · subst he; exact ⟨rfl, hP⟩
          · exact ih e (by rw [hrec]; exact he)
        | ok b' =>
          simp at he
          rcases he with he | he
          · subst he; exact ⟨rfl, hP⟩
          · exact ih e (by rw [hrec]; exact he)
    · rw [if_neg hP] at he
      rcases hrec : gcSweep dry z P tl with ⟨rest, evs, r⟩
      rw [hrec] at he
      exact ih e (by rw [hrec]; exact he)

/-- Every event the zone loop records belongs to one of the listed zones
and failed that zone's membership test. -/
theorem gcZones_events (dry : Bool) :
    ∀ zs children, ∀ e ∈ (gcZones dry children zs).2.1,
      ∃ zname set, (zname, set, e.zone) ∈ zs ∧ staleName set e.name = true := by
  intro zs
  induction zs with
  | nil => intro children e he; simp [gcZones] at he
  | cons hd zs' ih =>
    obtain ⟨zname, set, z⟩ := hd
    intro children e he
    simp only [gcZones] at he
    split at he
    · rename_i zsize zrm zchildren hfc
      split at he
      · rename_i rest evs err hsw
        simp only [] at he
        have h2 := gcSweep_events dry z (fun n _ => staleName set n) zchildren e
          (by rw [hsw]; exact he)
        exact ⟨zname, set, by rw [h2.1]; exact List.mem_cons_self _ _, h2.2⟩
      · rename_i rest evs b hsw
        split at he
        · rename_i cs2 evs2 err hz2
          simp only [] at he
          rcases List.mem_append.mp he with hmem | hmem
          · have h2 := gcSweep_events dry z (fun n _ => staleName set n) zchildren e
              (by rw [hsw]; exact hmem)
            exact ⟨zname, set, by rw [h2.1]; exact List.mem_cons_self _ _, h2.2⟩
          · obtain ⟨zn, st, hin, hst⟩ := ih _ e (by rw [hz2]; exact hmem)
            exact ⟨zn, st, List.mem_cons_of_mem _ hin, hst⟩
        · rename_i cs2 evs2 b' hz2
          simp only [] at he
          rcases List.mem_append.mp he with hmem | hmem
          · have h2 := gcSweep_events dry z (fun n _ => staleName set n) zchildren e
              (by rw [hsw]; exact hmem)
            exact ⟨zname, set, by rw [h2.1]; exact List.mem_cons_self _ _, h2.2⟩
          · obtain ⟨zn, st, hin, hst⟩ := ih _ e (by rw [hz2]; exact hmem)
            exact ⟨zn, st, List.mem_cons_of_mem _ hin, hst⟩
    · simp at he

/-- C1: GC safety.  Every remove event of a `gc_artifects` pass targets an
entry whose name is absent from that zone's live set (an entry whose name
is not valid UTF-8 has no name in any live set); equivalently, no entry
whose name is in its zone's live set is ever removed.  The live sets are
fixed for the whole pass, so absence at the moment of deletion is absence
from the pass's set. -/
theorem C1_gc_safety (live : Reachable) (dry : Bool) (t : FsNode) :
    ∀ e ∈ (gc_artifects live dry t).2.1,
      ∀ s, e.name = some s → s ∉ zoneSet live e.zone := by
  intro e he s hs
  cases t with
  | file _ _ => simp [gc_artifects] at he
  | symlink _ _ _ => simp [gc_artifects] at he
  | dir size rm children =>
    simp only [gc_artifects] at he
    have fromZones : ∀ cs1 evs1 r1,
        gcZones dry children
          [(".fingerprint", live.fingerprints, .fingerprint),
           ("build", live.builds, .build),
           ("deps", live.deps, .deps)] = (cs1, evs1, r1) →
        e ∈ evs1 → s ∉ zoneSet live e.zone := by
      intro cs1 evs1 r1 hz hmem
      obtain ⟨zn, st, hin, hst⟩ := gcZones_events dry _ children e (by rw [hz]; exact hmem)
      rw [hs] at hst
      simp only [staleName, Bool.not_eq_true'] at hst
      simp only [List.mem_cons, List.not_mem_nil, or_false, Prod.mk.injEq] at hin
      rcases hin with ⟨_, h2, h3⟩ | ⟨_, h2, h3⟩ | ⟨_, h2, h3⟩ <;>
        · rw [h3, zoneSet.eq_def]
          subst h2
          simpa using hst
    have fromTop : ∀ cs1 cs2 evs2 r2,
        gcSweep dry .top (upliftStale live.uplifts) cs1 = (cs2, evs2, r2) →
        e ∈ evs2 → s ∉ zoneSet live e.zone := by
      intro cs1 cs2 evs2 r2 hs2 hmem
      have h2 := gcSweep_events dry .top (upliftStale live.uplifts) cs1 e
        (by rw [hs2]; exact hmem)
      rw [h2.1, zoneSet]
      have h3 := h2.2
      simp only [upliftStale, Bool.and_eq_true] at h3
      have hstale := h3.2
      rw [hs] at hstale
      simp only [staleName, Bool.not_eq_true'] at hstale
      simpa using hstale
    split at he
    · rename_i cs1 evs1 err hz
      simp only [] at he
      exact fromZones cs1 evs1 _ hz he
    · rename_i cs1 evs1 b1 hz
      split at he
      · rename_i cs2 evs2 err hs2
        simp only [] at he
        rcases List.mem_append.mp he with hmem | hmem
        · exact fromZones cs1 evs1 _ hz hmem
        · exact fromTop cs1 cs2 evs2 _ hs2 hmem
      · rename_i cs2 evs2 b2 hs2
        simp only [] at he
        rcases List.mem_append.mp he with hmem | hmem
        · exact fromZones cs1 evs1 _ hz hmem
        · exact fromTop cs1 cs2 evs2 _ hs2 hmem

/-- C1 witness: `gc_artifects` on `wfT` records the removal of the stale
top-level file `oldbin`, and the theorem yields that `oldbin` is absent
from its zone's live set. -/
theorem C1_gc_safety_witness : ¬ "oldbin" ∈ zoneSet liveT Zone.top :=
  C1_gc_safety liveT false wfT
    ⟨Zone.top, some "oldbin", FsNode.file 11 true⟩
    (by
      have h : (gc_artifects liveT false wfT).2.1 =
          [⟨Zone.fingerprint, some "pkg-stale",
              FsNode.dir 4 true (fsl [(some "f", FsNode.file 5 true)])⟩,
           ⟨Zone.build, some "bs-stale", FsNode.dir 6 true .nil⟩,
           ⟨Zone.deps, some "old.rlib", FsNode.file 8 true⟩,
           ⟨Zone.top, some "oldbin", FsNode.file 11 true⟩] := rfl
      rw [h]
      exact List.mem_cons_of_mem _ (List.mem_cons_of_mem _
        (List.mem_cons_of_mem _ (List.mem_cons_self _ _))))
    "oldbin" rfl

/-- C9: top-level zone frame.  Every remove event of the top-level sweep
targets a regular file (never a directory or symlink), never the reserved
`.cargo-lock` name, and only names absent from the uplift set. -/
theorem C9_top_level_frame (live : Reachable) (dry : Bool) (t : FsNode) :
    ∀ e ∈ (gc_artifects live dry t).2.1, e.zone = Zone.top →
      (∃ sz rm, e.node = FsNode.file sz rm) ∧
      e.name ≠ some ".cargo-lock" ∧
      ∀ s, e.name = some s → s ∉ live.uplifts := by
  intro e he hz
  cases t with
  | file _ _ => simp [gc_artifects] at he
  | symlink _ _ _ => simp [gc_artifects] at he
  | dir size rm children =>
    simp only [gc_artifects] at he
    have fromZones : ∀ cs1 evs1 r1,
        gcZones dry children
          [(".fingerprint", live.fingerprints, .fingerprint),
           ("build", live.builds, .build),
           ("deps", live.deps, .deps)] = (cs1, evs1, r1) →
        e ∈ evs1 → False := by
      intro cs1 evs1 r1 hzz hmem
      obtain ⟨zn, st, hin, _⟩ := gcZones_events dry _ children e (by rw [hzz]; exact hmem)
      rw [hz] at hin
      simp at hin
    have fromTop : ∀ cs1 cs2 evs2 r2,
        gcSweep dry .top (upliftStale live.uplifts) cs1 = (cs2, evs2, r2) →
        e ∈ evs2 →
        (∃ sz rm, e.node = FsNode.file sz rm) ∧
        e.name ≠ some ".cargo-lock" ∧
        ∀ s, e.name = some s → s ∉ live.uplifts := by
      intro cs1 cs2 evs2 r2 hs2 hmem
      have h2 := (gcSweep_events dry .top (upliftStale live.uplifts) cs1 e
        (by rw [hs2]; exact hmem)).2
      simp only [upliftStale, Bool.and_eq_true] at h2
      obtain ⟨⟨hfile, hlock⟩, hstale⟩ := h2
      refine ⟨?_, ?_, ?_⟩
      · cases hnode : e.node with
        | file sz rm => exact ⟨sz, rm, rfl⟩
        | dir _ _ _ => rw [hnode] at hfile; simp [FsNode.isFile] at hfile
        | symlink _ _ _ => rw [hnode] at hfile; simp [FsNode.isFile] at hfile
      · simpa using hlock
      · intro s hsname
        rw [hsname] at hstale
        simp only [staleName, Bool.not_eq_true'] at hstale
        simpa using hstale
    split at he
    · rename_i cs1 evs1 err hzz
      simp only [] at he
      exact absurd he (fun h => fromZones cs1 evs1 _ hzz h)
    · rename_i cs1 evs1 b1 hzz
      split at he
      · rename_i cs2 evs2 err hs2
        simp only [] at he
        rcases List.mem_append.mp he with hmem | hmem
        · exact absurd hmem (fun h => fromZones cs1 evs1 _ hzz h)
        · exact fromTop cs1 cs2 evs2 _ hs2 hmem
      · rename_i cs2 evs2 b2 hs2
        simp only [] at he
        rcases List.mem_append.mp he with hmem | hmem
        · exact absurd hmem (fun h => fromZones cs1 evs1 _ hzz h)
        · exact fromTop cs1 cs2 evs2 _ hs2 hmem

/-- C9 witness: the recorded top-level event for `oldbin` in the `wfT` pass
is a regular file whose name is absent from the uplift set. -/
theorem C9_top_level_frame_witness : ¬ "oldbin" ∈ liveT.uplifts :=
  (C9_top_level_frame liveT false wfT
    ⟨Zone.top, some "oldbin", FsNode.file 11 true⟩
    (by
      have h : (gc_artifects liveT false wfT).2.1 =
          [⟨Zone.fingerprint, some "pkg-stale",
              FsNode.dir 4 true (fsl [(some "f", FsNode.file 5 true)])⟩,
           ⟨Zone.build, some "bs-stale", FsNode.dir 6 true .nil⟩,
           ⟨Zone.deps, some "old.rlib", FsNode.file 8 true⟩,
           ⟨Zone.top, some "oldbin", FsNode.file 11 true⟩] := rfl
      rw [h]
      exact List.mem_cons_of_mem _ (List.mem_cons_of_mem _
        (List.mem_cons_of_mem _ (List.mem_cons_self _ _))))
    rfl).2.2 "oldbin" rfl

/-- C6 counterexample: on a profile directory with no `.fingerprint` zone
child, `gc_artifects` fails — `fs::read_dir(dir.join(".fingerprint"))?` at
`src/main.rs:225` propagates the error — instead of treating the zone as
empty and continuing, as the claim states. -/
theorem C6_counterexample :
    gc_artifects live0 false t6 = (t6, [], Except.error ()) := rfl

/-- C6 (amended): a recognized zone directory that does not exist **is** an
error: when a profile directory has no `.fingerprint` child, the pass on
that profile directory aborts with an error immediately, deleting nothing
and recording no events. -/
theorem C6_missing_zone (live : Reachable) (dry : Bool) (size : Nat) (rm : Bool)
    (children : FsListing)
    (h : findChild children (some ".fingerprint") = none) :
    gc_artifects live dry (.dir size rm children) =
      (.dir size rm children, [], Except.error ()) := by
  simp [gc_artifects, gcZones, h]

/-- C6 witness: the amended behaviour on the concrete profile directory
`t6b`, which has a `deps` zone but no `.fingerprint` zone. -/
theorem C6_missing_zone_witness :
    gc_artifects live0 false t6b = (t6b, [], Except.error ()) :=
  C6_missing_zone live0 false 4096 true
    (fsl [(some "deps", FsNode.dir 1 true .nil)]) rfl

/-- C7 counterexample: with an undeletable stale entry in the host `debug`
profile and a deletable stale entry under the platform root `x-y`, the run
aborts at the first deletion error: the outcome is an error, the only
recorded event is the failing host entry, and the `x-y` subtree is left
untouched (its stale entry is neither visited nor deleted) — the pass does
**not** continue with the next output root. -/
theorem C7_counterexample :
    gc_workspace live7 false t7 =
      (t7, [⟨Zone.fingerprint, some "stale1", FsNode.file 10 false⟩],
       Except.error ()) := rfl

/-- Replacing one named child leaves every other name's resolution
unchanged. -/
theorem findChild_setChild_ne (n n' : Option String) (c' : FsNode)
    (hne : n' ≠ n) :
    ∀ cs, findChild (setChild cs n c') n' = findChild cs n' := by
  intro cs
  induction cs using listingInd with
  | hnil => rfl
  | hcons m c rest ih =>
    by_cases hm : m = n
    · subst hm
      simp only [setChild, beq_self_eq_true, if_true, findChild]
      have : (m == n') = false := by
        simp only [beq_eq_false_iff_ne]
        exact fun h => hne h.symm
      rw [this]
      simp
    · have hmn : (m == n) = false := by simpa using hm
      simp only [setChild, hmn, if_false, findChild]
      by_cases hm' : m = n'
      · subst hm'; simp
      · have : (m == n') = false := by simpa using hm'
        rw [this]
        simpa using ih

/-- The `check` closure only rewrites the `debug` and `release` children of
the directory it is given; every other child resolves as before, and the
shape is preserved. -/
theorem checkDir_children (live : Option String → String → Reachable)
    (dry : Bool) (target : Option String) (size : Nat) (rm : Bool)
    (children : FsListing) (t1 : FsNode) (evs1 : List GcEvent)
    (r : Except Unit Nat)
    (h : checkDir live dry target (.dir size rm children) = (t1, evs1, r)) :
    ∃ cs1, t1 = FsNode.dir size rm cs1 ∧
      ∀ n, n ≠ some "debug" → n ≠ some "release" →
        findChild cs1 n = findChild children n := by
  have stepChildren : ∀ (cs : FsListing) (pname profile : String) cs' evs' r',
      checkStep live dry target cs pname profile = (cs', evs', r') →
      ∀ n, n ≠ some pname → findChild cs' n = findChild cs n := by
    intro cs pname profile cs' evs' r' hstep n hn
    simp only [checkStep] at hstep
    split at hstep
    · rename_i p psize prm pchildren hfc
      split at hstep
      · rename_i p' evs e hga
        rw [Prod.mk.injEq, Prod.mk.injEq] at hstep
        rw [← hstep.1]
        exact findChild_setChild_ne _ _ _ hn cs
      · rename_i p' evs b hga
        rw [Prod.mk.injEq, Prod.mk.injEq] at hstep
        rw [← hstep.1]
        exact findChild_setChild_ne _ _ _ hn cs
    · rw [Prod.mk.injEq, Prod.mk.injEq] at hstep
      rw [← hstep.1]
  simp only [checkDir] at h
  split at h
  · rename_i cs1 evs' e' hstep1
    rw [Prod.mk.injEq, Prod.mk.injEq] at h
    refine ⟨cs1, h.1.symm, ?_⟩
    intro n hn1 hn2
    exact stepChildren children "debug" "dev" cs1 evs' _ hstep1 n hn1
  · rename_i cs1 evs' b1 hstep1
    split at h
    · rename_i cs2 evs2 e' hstep2
      rw [Prod.mk.injEq, Prod.mk.injEq] at h
      refine ⟨cs2, h.1.symm, ?_⟩
      intro n hn1 hn2
      rw [stepChildren cs1 "release" "release" cs2 evs2 _ hstep2 n hn2]
      exact stepChildren children "debug" "dev" cs1 evs' _ hstep1 n hn1
    · rename_i cs2 evs2 b2 hstep2
      rw [Prod.mk.injEq, Prod.mk.injEq] at h
      refine ⟨cs2, h.1.symm, ?_⟩
      intro n hn1 hn2
      rw [stepChildren cs1 "release" "release" cs2 evs2 _ hstep2 n hn2]
      exact stepChildren children "debug" "dev" cs1 evs' _ hstep1 n hn1

/-- C7 (amended): a deletion error stops the remaining walk of the current
zone and is not rolled back, but it aborts the **entire** run: when the
host pass fails, `gc_workspace` returns that error directly and the
platform-triple output roots are never processed — their subtrees (every
child other than `debug`/`release`) are exactly as before. -/
theorem C7_abort_on_error (live : Option String → String → Reachable)
    (dry : Bool) (size : Nat) (rm : Bool) (children : FsListing)
    (t1 : FsNode) (evs1 : List GcEvent) (e : Unit)
    (h : checkDir live dry none (.dir size rm children) = (t1, evs1, Except.error e)) :
    gc_workspace live dry (.dir size rm children) = (t1, evs1, Except.error e) ∧
    ∃ cs1, t1 = FsNode.dir size rm cs1 ∧
      ∀ n, n ≠ some "debug" → n ≠ some "release" →
        findChild cs1 n = findChild children n := by
  constructor
  · simp [gc_workspace, h]
  · exact checkDir_children live dry none size rm children t1 evs1 _ h

/-- C7 witness: on the concrete two-root tree `t7` the host error aborts
the run with the host's single event and tree. -/
theorem C7_abort_on_error_witness :
    gc_workspace live7 false t7 =
      (t7, [⟨Zone.fingerprint, some "stale1", FsNode.file 10 false⟩],
       Except.error ()) ∧
    ¬ Except.error () = (Except.ok 30 : Except Unit Nat) :=
  ⟨(C7_abort_on_error live7 false 4096 true
      (fsl [(some "debug", stProfile false 10 "stale1"),
            (some "x-y", FsNode.dir 4096 true
              (fsl [(some "debug", stProfile true 20 "stale2")]))])
      t7 [⟨Zone.fingerprint, some "stale1", FsNode.file 10 false⟩] ()
      rfl).1,
   by simp⟩

mutual

/-- The byte/error outcome of `remove_recursive` never depends on what a
symlink points to: the walk does not follow links. -/
theorem symAg_result : ∀ a b, symAgnostic a b → ∀ dry,
    (remove_recursive dry a).2 = (remove_recursive dry b).2
  | .file s r, .file s' r', h, dry => by
    obtain ⟨hs, hr⟩ : s = s' ∧ r = r' := h
    subst hs; subst hr; rfl
  | .file _ _, .dir _ _ _, h, _ => False.elim h
  | .file _ _, .symlink _ _ _, h, _ => False.elim h
  | .dir _ _ _, .file _ _, h, _ => False.elim h
  | .dir _ _ _, .symlink _ _ _, h, _ => False.elim h
  | .symlink _ _ _, .file _ _, h, _ => False.elim h
  | .symlink _ _ _, .dir _ _ _, h, _ => False.elim h
  | .symlink s r t, .symlink s' r' t', h, dry => by
    obtain ⟨hs, hr⟩ : s = s' ∧ r = r' := h
    subst hs; subst hr
    cases dry <;> cases r <;> rfl
  | .dir s r cs, .dir s' r' cs', h, dry => by
    obtain ⟨hs, hr, hcs⟩ : s = s' ∧ r = r' ∧ symListAg cs cs' := h
    subst hs; subst hr
    have h2 := symListAg_result cs cs' hcs dry
    simp only [remove_recursive]
    rcases e1 : removeChildren dry cs with ⟨rest, res⟩
    rcases e2 : removeChildren dry cs' with ⟨rest', res'⟩
    have hres : res = res' := by
      rw [e1, e2] at h2
      exact h2
    subst hres
    cases res with
    | error err => rfl
    | ok b => cases dry <;> cases r <;> rfl

/-- Pointwise version of `symAg_result` for listings. -/
theorem symListAg_result : ∀ cs cs', symListAg cs cs' → ∀ dry,
    (removeChildren dry cs).2 = (removeChildren dry cs').2
  | .nil, .nil, _, dry => rfl
  | .nil, .cons _ _ _, h, _ => False.elim h
  | .cons _ _ _, .nil, h, _ => False.elim h
  | .cons n c cs, .cons n' c' cs', h, dry => by
    obtain ⟨hn, hc, hcs⟩ : n = n' ∧ symAgnostic c c' ∧ symListAg cs cs' := h
    subst hn
    have h1 := symAg_result c c' hc dry
    have h2 := symListAg_result cs cs' hcs dry
    simp only [removeChildren]
    rcases e1 : remove_recursive dry c with ⟨res1, r1⟩
    rcases e2 : remove_recursive dry c' with ⟨res1', r1'⟩
    have hr : r1 = r1' := by rw [e1, e2] at h1; exact h1
    subst hr
    cases r1 with
    | error err => rfl
    | ok b =>
      rcases e3 : removeChildren dry cs with ⟨rest, rr⟩
      rcases e4 : removeChildren dry cs' with ⟨rest', rr'⟩
      have hrr : rr = rr' := by rw [e3, e4] at h2; exact h2
      subst hrr
      cases rr with
      | error err => rfl
      | ok b' => rfl

end

/-- C10: symlinks are never followed.  A symlink is removed as a plain
file: under dry-run it is left in place and only its own link size is
counted; a removable link is unlinked for exactly its own size, with no
recursion into the target; and in general the byte/error outcome of any
removal walk is unchanged when every symlink's target is replaced by an
arbitrary other node — nothing behind a link is visited, counted, or
deleted. -/
theorem C10_symlink_no_follow :
    (∀ sz rm target, remove_recursive true (FsNode.symlink sz rm target) =
      (some (FsNode.symlink sz rm target), Except.ok sz)) ∧
    (∀ sz target, remove_recursive false (FsNode.symlink sz true target) =
      (none, Except.ok sz)) ∧
    (∀ dry a b, symAgnostic a b →
      (remove_recursive dry a).2 = (remove_recursive dry b).2) :=
  ⟨fun _ _ _ => rfl, fun _ _ => rfl, fun dry a b h => symAg_result a b h dry⟩

/-- C10 witness: replacing a link's target (a large directory) by a tiny
file leaves the removal outcome untouched. -/
theorem C10_symlink_no_follow_witness :
    (remove_recursive false (FsNode.symlink 5 true
        (FsNode.dir 999 true (fsl [(some "huge", FsNode.file 1000 true)])))).2 =
    (remove_recursive false (FsNode.symlink 5 true (FsNode.file 0 true))).2 :=
  C10_symlink_no_follow.2.2 false _ _ ⟨rfl, rfl⟩

mutual

/-- A dry-run walk leaves every node in place. -/
theorem rr_dry_id : ∀ a, (remove_recursive true a).1 = some a
  | .file s r => rfl
  | .symlink s r t => rfl
  | .dir s r cs => by
    have h := rc_dry_id cs
    simp only [remove_recursive]
    rcases e : removeChildren true cs with ⟨rest, res⟩
    rw [e] at h
    have h' : rest = cs := h
    subst h'
    cases res with
    | error err => rfl
    | ok b => rfl

/-- A dry-run walk leaves every listing in place. -/
theorem rc_dry_id : ∀ cs, (removeChildren true cs).1 = cs
  | .nil => rfl
  | .cons n c cs => by
    have h1 := rr_dry_id c
    have h2 := rc_dry_id cs
    simp only [removeChildren]
    rcases e1 : remove_recursive true c with ⟨res1, r1⟩
    rw [e1] at h1
    have h1' : res1 = some c := h1
    subst h1'
    rcases e2 : removeChildren true cs with ⟨rest, rr⟩
    rw [e2] at h2
    have h2' : rest = cs := h2
    subst h2'
    cases r1 with
    | error err => rfl
    | ok b => cases rr with
      | error err => rfl
      | ok b' => rfl

end

mutual

/-- When the real walk succeeds, the dry-run walk reports the same byte
count. -/
theorem rr_dry_ok : ∀ a b, (remove_recursive false a).2 = .ok b →
    (remove_recursive true a).2 = .ok b
  | .file s r, b => by
    intro h
    cases r
    · exact absurd h (by simp [remove_recursive])
    · exact h
  | .symlink s r t, b => by
    intro h
    cases r
    · exact absurd h (by simp [remove_recursive])
    · exact h
  | .dir s r cs, b => by
    intro h
    simp only [remove_recursive] at h ⊢
    rcases e1 : removeChildren false cs with ⟨restF, resF⟩
    rw [e1] at h
    cases resF with
    | error err => simp at h
    | ok bf =>
      cases r
      · exact absurd h (by simp)
      · have hb : s + bf = b := by simpa using h
        have h2 := rc_dry_ok cs bf (by rw [e1])
        rcases e2 : removeChildren true cs with ⟨restT, resT⟩
        rw [e2] at h2
        have h2' : resT = .ok bf := h2
        subst h2'
        simpa using hb

/-- Listing version of `rr_dry_ok`. -/
theorem rc_dry_ok : ∀ cs b, (removeChildren false cs).2 = .ok b →
    (removeChildren true cs).2 = .ok b
  | .nil, b => fun h => h
  | .cons n c cs, b => by
    intro h
    simp only [removeChildren] at h ⊢
    rcases e1 : remove_recursive false c with ⟨res1, r1⟩
    rw [e1] at h
    cases r1 with
    | error err => simp at h
    | ok bc =>
      rcases e2 : removeChildren false cs with ⟨rest2, r2⟩
      rw [e2] at h
      cases r2 with
      | error err => simp at h
      | ok bcs =>
        have hb : bc + bcs = b := by simpa using h
        have hc := rr_dry_ok c bc (by rw [e1])
        have hcs := rc_dry_ok cs bcs (by rw [e2])
        rcases e3 : remove_recursive true c with ⟨res3, r3⟩
        rw [e3] at hc
        have hc' : r3 = .ok bc := hc
        subst hc'
        rcases e4 : removeChildren true cs with ⟨rest4, r4⟩
        rw [e4] at hcs
        have hcs' : r4 = .ok bcs := hcs
        subst hcs'
        simpa using hb

end

/-- A dry-run sweep keeps the listing unchanged. -/
theorem sweep_dry_id (z : Zone) (P : Option String → FsNode → Bool) :
    ∀ cs, (gcSweep true z P cs).1 = cs := by
  intro cs
  induction cs using listingInd with
  | hnil => rfl
  | hcons n c tl ih =>
    by_cases hP : P n c
    · simp only [gcSweep, if_pos hP]
      rcases e1 : remove_recursive true c with ⟨res, r⟩
      have h1 : res = some c := by have := rr_dry_id c; rw [e1] at this; exact this
      subst h1
      cases r with
      | error err => rfl
      | ok b =>
        rcases e2 : gcSweep true z P tl with ⟨rest, evs, r2⟩
        have h2 : rest = tl := by rw [e2] at ih; exact ih
        subst h2
        cases r2 with
        | error err => rfl
        | ok b' => rfl
    · simp only [gcSweep, if_neg hP]
      rcases e2 : gcSweep true z P tl with ⟨rest, evs, r2⟩
      have h2 : rest = tl := by rw [e2] at ih; exact ih
      subst h2
      rfl

/-- When the real sweep succeeds, the dry-run sweep records the same events
and bytes, and keeps the listing. -/
theorem sweep_dry_ok (z : Zone) (P : Option String → FsNode → Bool) :
    ∀ cs rest evs b, gcSweep false z P cs = (rest, evs, .ok b) →
      gcSweep true z P cs = (cs, evs, .ok b) := by
  intro cs
  induction cs using listingInd with
  | hnil =>
    intro rest evs b h
    simp only [gcSweep, Prod.mk.injEq] at h
    obtain ⟨-, h2, h3⟩ := h
    rw [← h2, ← h3]
    rfl
  | hcons n c tl ih =>
    intro rest evs b h
    by_cases hP : P n c
    · simp only [gcSweep, if_pos hP] at h ⊢
      rcases e1 : remove_recursive false c with ⟨resF, rF⟩
      rw [e1] at h
      cases rF with
      | error err => simp at h
      | ok bc =>
        rcases e2 : gcSweep false z P tl with ⟨restF2, evs2, r2⟩
        rw [e2] at h
        cases r2 with
        | error err => simp at h
        | ok b2 =>
          simp only [Prod.mk.injEq] at h
          obtain ⟨-, hevs, hb⟩ := h
          rcases e3 : remove_recursive true c with ⟨resT, rT⟩
          have hresT : resT = some c := by have := rr_dry_id c; rw [e3] at this; exact this
          have hrT : rT = .ok bc := by
            have := rr_dry_ok c bc (by rw [e1])
            rw [e3] at this; exact this
          subst hresT; subst hrT
          rw [ih restF2 evs2 b2 e2]
          rw [← hevs, ← hb]
    · simp only [gcSweep, if_neg hP] at h ⊢
      rcases e2 : gcSweep false z P tl with ⟨restF2, evs2, r2⟩
      rw [e2] at h
      simp only [Prod.mk.injEq] at h
      obtain ⟨-, hevs, hr⟩ := h
      cases r2 with
      | error err => exact absurd hr (by simp)
      | ok b2 =>
        obtain rfl : b2 = b := by injection hr
        rw [ih restF2 evs2 b2 e2, hevs]

/-- Putting back the child that was found changes nothing. -/
theorem setChild_id : ∀ cs n c, findChild cs n = some c → setChild cs n c = cs := by
  intro cs
  induction cs using listingInd with
  | hnil => intro n c h; simp [findChild] at h
  | hcons m cm tl ih =>
    intro n c h
    simp only [findChild] at h
    simp only [setChild]
    by_cases hm : (m == n) = true
    · rw [if_pos hm] at h
      rw [if_pos hm]
      obtain rfl : cm = c := by injection h
      rfl
    · rw [if_neg hm] at h
      rw [if_neg hm]
      rw [ih n c h]

/-- Replacing a found child makes it the one found. -/
theorem findChild_setChild_found : ∀ cs n c c', findChild cs n = some c →
    findChild (setChild cs n c') n = some c' := by
  intro cs
  induction cs using listingInd with
  | hnil => intro n c c' h; simp [findChild] at h
  | hcons m cm tl ih =>
    intro n c c' h
    simp only [findChild] at h
    simp only [setChild]
    by_cases hm : (m == n) = true
    · rw [if_pos hm]
      simp only [findChild, hm, if_pos]
    · rw [if_neg hm] at h
      rw [if_neg hm]
      simp only [findChild]
      rw [if_neg hm]
      exact ih n c c' h

/-- A dry-run zone loop keeps the top-level listing unchanged. -/
theorem zones_dry_id : ∀ zs children, (gcZones true children zs).1 = children := by
  intro zs
  induction zs with
  | nil => intro children; rfl
  | cons hd zs' ih =>
    obtain ⟨zname, set, z⟩ := hd
    intro children
    rcases hfc : findChild children (some zname) with _ | c
    · simp [gcZones, hfc]
    · cases c with
      | file s r => simp [gcZones, hfc]
      | symlink s r t => simp [gcZones, hfc]
      | dir zsize zrm zchildren =>
        rcases e1 : gcSweep true z (fun n _ => staleName set n) zchildren with ⟨rest, evs, r⟩
        have hrest : rest = zchildren := by
          have h := sweep_dry_id z (fun n _ => staleName set n) zchildren
          rw [e1] at h; exact h
        rw [hrest] at e1
        have hset : setChild children (some zname) (.dir zsize zrm zchildren) = children :=
          setChild_id children (some zname) _ hfc
        cases r with
        | error err => simp [gcZones, hfc, e1, hset]
        | ok b =>
          rcases e2 : gcZones true children zs' with ⟨cs2, evs2, r2⟩
          have h2 : cs2 = children := by
            have h := ih children
            rw [e2] at h; exact h
          rw [h2] at e2
          cases r2 with
          | error err => simp [gcZones, hfc, e1, hset, e2]
          | ok b2 => simp [gcZones, hfc, e1, hset, e2]

/-- When the real zone loop succeeds and the dry-side listing resolves the
listed zone names to the same directories, the dry-run zone loop yields the
same events and bytes and keeps its listing. -/
theorem zones_dry_ok : ∀ (zs : List (String × List String × Zone)) childrenR childrenD cs' evs b,
    (∀ zn x y, (zn, x, y) ∈ zs →
      findChild childrenD (some zn) = findChild childrenR (some zn)) →
    (zs.map fun x => x.1).Nodup →
    gcZones false childrenR zs = (cs', evs, .ok b) →
    gcZones true childrenD zs = (childrenD, evs, .ok b) := by
  intro zs
  induction zs with
  | nil =>
    intro childrenR childrenD cs' evs b hagree hnd h
    simp only [gcZones, Prod.mk.injEq] at h
    obtain ⟨-, h2, h3⟩ := h
    rw [gcZones, ← h2, ← h3]
  | cons hd zs' ih =>
    obtain ⟨zname, set, z⟩ := hd
    intro childrenR childrenD cs' evs b hagree hnd h
    simp only [gcZones] at h
    have hagreeHead := hagree zname set z (List.mem_cons_self _ _)
    split at h
    · rename_i zsize zrm zchildren hfcR
      split at h
      · rename_i restR evs1 err hsw
        simp at h
      · rename_i restR evs1 b1 hsw
        split at h
        · rename_i cs2 evs2 err hz2
          simp at h
        · rename_i cs2 evs2 b2 hz2
          simp only [Prod.mk.injEq] at h
          obtain ⟨-, hevs, hb⟩ := h
          have hsw' := sweep_dry_ok z (fun n _ => staleName set n) zchildren restR evs1 b1 hsw
          have hsetD : setChild childrenD (some zname) (.dir zsize zrm zchildren) = childrenD :=
            setChild_id childrenD (some zname) _ (by rw [hagreeHead, hfcR])
          have hnd' : (zs'.map fun x => x.1).Nodup := (List.nodup_cons.mp hnd).2
          have hname : ∀ zn x y, (zn, x, y) ∈ zs' → zn ≠ zname := by
            intro zn x y hmem heq
            exact (List.nodup_cons.mp hnd).1
              (heq ▸ List.mem_map.mpr ⟨(zn, x, y), hmem, rfl⟩)
          have hagree' : ∀ zn x y, (zn, x, y) ∈ zs' →
              findChild childrenD (some zn) =
              findChild (setChild childrenR (some zname) (.dir zsize zrm restR)) (some zn) := by
            intro zn x y hmem
            rw [findChild_setChild_ne (some zname) (some zn) _
              (by simpa using hname zn x y hmem) childrenR]
            exact hagree zn x y (List.mem_cons_of_mem _ hmem)
          have hih := ih _ childrenD cs2 evs2 b2 hagree' hnd' hz2
          simp only [gcZones, hagreeHead, hfcR, hsw', hsetD, hih]
          rw [← hevs, ← hb]
    · simp at h

theorem topAgree_refl : ∀ cs, topAgree cs cs := by
  intro cs
  induction cs using listingInd with
  | hnil => trivial
  | hcons n c tl ih => exact ⟨rfl, Or.inl rfl, ih⟩

theorem topAgree_trans : ∀ a b c, topAgree a b → topAgree b c → topAgree a c := by
  intro a
  induction a using listingInd with
  | hnil =>
    intro b c hab hbc
    cases b with
    | nil =>
      cases c with
      | nil => trivial
      | cons _ _ _ => exact False.elim hbc
    | cons _ _ _ => exact False.elim hab
  | hcons n x tl ih =>
    intro b c hab hbc
    cases b with
    | nil => exact False.elim hab
    | cons n' y tlb =>
      cases c with
      | nil => exact False.elim hbc
      | cons n'' z tlc =>
        obtain ⟨hn1, hx1, ht1⟩ := hab
        obtain ⟨hn2, hx2, ht2⟩ := hbc
        refine ⟨hn1.trans hn2, ?_, ih tlb tlc ht1 ht2⟩
        rcases hx1 with h1 | h1
        · rw [h1]; exact hx2
        · rcases hx2 with h2 | h2
          · rw [← h2]; exact Or.inr h1
          · right
            cases x <;> cases y <;> try exact False.elim h1
            cases z <;> try exact False.elim h2
            obtain ⟨hs1, hr1⟩ := h1
            obtain ⟨hs2, hr2⟩ := h2
            exact ⟨hs1.trans hs2, hr1.trans hr2⟩

theorem topAgree_setChild : ∀ cs n s r x y,
    findChild cs n = some (.dir s r x) →
    topAgree cs (setChild cs n (.dir s r y)) := by
  intro cs
  induction cs using listingInd with
  | hnil => intro n s r x y h; simp [findChild] at h
  | hcons m c tl ih =>
    intro n s r x y h
    simp only [findChild] at h
    simp only [setChild]
    by_cases hm : (m == n) = true
    · rw [if_pos hm] at h
      rw [if_pos hm]
      obtain rfl : c = FsNode.dir s r x := by injection h
      exact ⟨rfl, Or.inr ⟨rfl, rfl⟩, topAgree_refl tl⟩
    · rw [if_neg hm] at h
      rw [if_neg hm]
      exact ⟨rfl, Or.inl rfl, ih n s r x y h⟩

/-- The zone loop only rewrites zone children in place (directories stay
directories of the same size and removability), so the top-level sweep
cannot distinguish its input from its output. -/
theorem zones_topAgree : ∀ zs children cs' evs r,
    gcZones false children zs = (cs', evs, r) → topAgree children cs' := by
  intro zs
  induction zs with
  | nil =>
    intro children cs' evs r h
    simp only [gcZones, Prod.mk.injEq] at h
    rw [← h.1]
    exact topAgree_refl children
  | cons hd zs' ih =>
    obtain ⟨zname, set, z⟩ := hd
    intro children cs' evs r h
    simp only [gcZones] at h
    split at h
    · rename_i zsize zrm zchildren hfc
      split at h
      · rename_i restR evs1 err hsw
        simp only [Prod.mk.injEq] at h
        rw [← h.1]
        exact topAgree_setChild children (some zname) zsize zrm zchildren restR hfc
      · rename_i restR evs1 b1 hsw
        split at h
        · rename_i cs2 evs2 err hz2
          simp only [Prod.mk.injEq] at h
          rw [← h.1]
          exact topAgree_trans _ _ _
            (topAgree_setChild children (some zname) zsize zrm zchildren restR hfc)
            (ih _ _ _ _ hz2)
        · rename_i cs2 evs2 b2 hz2
          simp only [Prod.mk.injEq] at h
          rw [← h.1]
          exact topAgree_trans _ _ _
            (topAgree_setChild children (some zname) zsize zrm zchildren restR hfc)
            (ih _ _ _ _ hz2)
    · simp only [Prod.mk.injEq] at h
      rw [← h.1]
      exact topAgree_refl children

/-- The removal decision of the top-level sweep is blind to directory
contents. -/
theorem upliftStale_topAgree (up : List String) (n : Option String)
    (c cR : FsNode)
    (h : c = cR ∨ match c, cR with
      | .dir s r _, .dir s' r' _ => s = s' ∧ r = r'
      | _, _ => False) :
    upliftStale up n c = upliftStale up n cR := by
  rcases h with h | h
  · rw [h]
  · cases c <;> cases cR <;> try exact False.elim h
    rfl

/-- When the real top-level sweep succeeds, a dry-run sweep over any
`topAgree`-related listing yields the same events and bytes. -/
theorem sweep_top_agree_ok (up : List String) :
    ∀ csD csR cs2 evs b, topAgree csD csR →
      gcSweep false .top (upliftStale up) csR = (cs2, evs, .ok b) →
      gcSweep true .top (upliftStale up) csD = (csD, evs, .ok b) := by
  intro csD
  induction csD using listingInd with
  | hnil =>
    intro csR cs2 evs b hag h
    cases csR with
    | nil =>
      simp only [gcSweep, Prod.mk.injEq] at h
      obtain ⟨-, h2, h3⟩ := h
      rw [gcSweep, ← h2, ← h3]
    | cons _ _ _ => exact False.elim hag
  | hcons n c tl ih =>
    intro csR cs2 evs b hag h
    cases csR with
    | nil => exact False.elim hag
    | cons n' cR tlR =>
      obtain ⟨hn, hc, htl⟩ := hag
      subst hn
      have hpred := upliftStale_topAgree up n c cR hc
      by_cases hP : upliftStale up n c = true
      · have hPR : upliftStale up n cR = true := by rw [← hpred]; exact hP
        have hceq : c = cR := by
          rcases hc with h1 | h1
          · exact h1
          · exfalso
            cases c <;> cases cR <;> try exact False.elim h1
            simp [upliftStale, FsNode.isFile] at hP
        subst hceq
        simp only [gcSweep, if_pos hP] at h ⊢
        split at h
        · rename_i res err hrr
          simp at h
        · rename_i res bc hrr
          split at h
          · rename_i restR evs2 err hswr
            simp at h
          · rename_i restR evs2 b2 hswr
            simp only [Prod.mk.injEq] at h
            obtain ⟨-, hevs, hb⟩ := h
            have hresT : (remove_recursive true c).1 = some c := rr_dry_id c
            have hrT : (remove_recursive true c).2 = .ok bc := rr_dry_ok c bc (by rw [hrr])
            rcases e3 : remove_recursive true c with ⟨resT, rT⟩
            rw [e3] at hresT hrT
            have hresT' : resT = some c := hresT
            have hrT' : rT = Except.ok bc := hrT
            subst hresT'; subst hrT'
            rw [ih tlR restR evs2 b2 htl hswr]
            rw [← hevs, ← hb]
      · have hPR : upliftStale up n cR ≠ true := by rw [← hpred]; exact hP
        simp only [gcSweep, if_neg hP, if_neg hPR] at h ⊢
        rcases e2 : gcSweep false Zone.top (upliftStale up) tlR with ⟨restR, evs2, r2⟩
        rw [e2] at h
        simp only [Prod.mk.injEq] at h
        obtain ⟨-, hevs, hr⟩ := h
        cases r2 with
        | error err => exact absurd hr (by simp)
        | ok b2 =>
          obtain rfl : b2 = b := by injection hr
          rw [ih tlR restR evs2 b2 htl e2, hevs]

/-- C8: dry-run equivalence.  A dry-run pass never modifies the tree, and
whenever a real pass over the same tree succeeds, the dry-run pass over
that unmodified tree reports exactly the bytes the real pass frees (and
the same remove events): the size summation is performed identically,
nothing is removed. -/
theorem C8_dry_run_equiv :
    (∀ live t, (gc_artifects live true t).1 = t) ∧
    (∀ live t t' evs b, gc_artifects live false t = (t', evs, Except.ok b) →
      (gc_artifects live true t).2 = (evs, Except.ok b)) := by
  constructor
  · intro live t
    cases t with
    | file _ _ => rfl
    | symlink _ _ _ => rfl
    | dir size rm children =>
      simp only [gc_artifects]
      rcases e1 : gcZones true children
          [(".fingerprint", live.fingerprints, .fingerprint),
           ("build", live.builds, .build),
           ("deps", live.deps, .deps)] with ⟨cs1, evs1, r1⟩
      have h1 : cs1 = children := by
        have h := zones_dry_id
          [(".fingerprint", live.fingerprints, .fingerprint),
           ("build", live.builds, .build),
           ("deps", live.deps, .deps)] children
        rw [e1] at h; exact h
      subst h1
      cases r1 with
      | error err => rfl
      | ok b1 =>
        rcases e2 : gcSweep true .top (upliftStale live.uplifts) cs1
          with ⟨cs2, evs2, r2⟩
        have h2 : cs2 = cs1 := by
          have h := sweep_dry_id .top (upliftStale live.uplifts) cs1
          rw [e2] at h; exact h
        subst h2
        cases r2 with
        | error err => simp [e2]
        | ok b2 => simp [e2]
  · intro live t t' evs b h
    cases t with
    | file _ _ => simp [gc_artifects] at h
    | symlink _ _ _ => simp [gc_artifects] at h
    | dir size rm children =>
      simp only [gc_artifects] at h ⊢
      split at h
      · rename_i cs1 evs1 err hz
        simp at h
      · rename_i cs1 evs1 b1 hz
        split at h
        · rename_i cs2 evs2 err hs2
          simp at h
        · rename_i cs2 evs2 b2 hs2
          simp only [Prod.mk.injEq] at h
          obtain ⟨-, hevs, hb⟩ := h
          have hzd := zones_dry_ok _ children children cs1 evs1 b1
            (fun _ _ _ _ => rfl) (by simp) hz
          have hta := zones_topAgree _ children cs1 evs1 (Except.ok b1) hz
          have hsd := sweep_top_agree_ok live.uplifts children cs1 cs2 evs2 b2 hta hs2
          simp only [hzd, hsd]
          rw [← hevs, ← hb]

/-- C8 witness: the dry-run pass over `wfT` reports the 34 bytes the real
pass frees, with the same events. -/
theorem C8_dry_run_equiv_witness :
    (gc_artifects liveT true wfT).2 =
      ((gc_artifects liveT false wfT).2.1, Except.ok 34) :=
  C8_dry_run_equiv.2 liveT wfT (gc_artifects liveT false wfT).1
    (gc_artifects liveT false wfT).2.1 34 rfl

mutual

/-- A successful real removal removes the node completely. -/
theorem rr_false_ok_none : ∀ a res b, remove_recursive false a = (res, .ok b) →
    res = none
  | .file s r, res, b => by
    intro h
    cases r
    · simp [remove_recursive] at h
    · simp only [remove_recursive, if_neg Bool.false_ne_true, if_pos rfl] at h
      exact (Prod.ext_iff.mp h).1.symm
  | .symlink s r t, res, b => by
    intro h
    cases r
    · simp [remove_recursive] at h
    · simp only [remove_recursive, if_neg Bool.false_ne_true, if_pos rfl] at h
      exact (Prod.ext_iff.mp h).1.symm
  | .dir s r cs, res, b => by
    intro h
    simp only [remove_recursive] at h
    rcases e1 : removeChildren false cs with ⟨rest, rr⟩
    rw [e1] at h
    cases rr with
    | error err => simp at h
    | ok bf =>
      cases r
      · simp at h
      · simp only [if_neg Bool.false_ne_true, if_pos rfl] at h
        exact (Prod.ext_iff.mp h).1.symm

/-- Listing version: a successful real removal empties the listing. -/
theorem rc_false_ok_nil : ∀ cs rest b, removeChildren false cs = (rest, .ok b) →
    rest = .nil
  | .nil, rest, b => by
    intro h
    exact (Prod.ext_iff.mp h).1.symm
  | .cons n c cs, rest, b => by
    intro h
    simp only [removeChildren] at h
    rcases e1 : remove_recursive false c with ⟨res1, r1⟩
    rw [e1] at h
    cases r1 with
    | error err => simp at h
    | ok bc =>
      rcases e2 : removeChildren false cs with ⟨rest2, r2⟩
      rw [e2] at h
      cases r2 with
      | error err => simp at h
      | ok bcs =>
        have hres : res1 = none := rr_false_ok_none c res1 bc e1
        have hrest : rest2 = FsListing.nil := rc_false_ok_nil cs rest2 bcs e2
        subst hres; subst hrest
        exact (Prod.ext_iff.mp h).1.symm

end

/-- After a successful real sweep, every remaining entry fails the removal
predicate. -/
theorem sweep_ok_keep (z : Zone) (P : Option String → FsNode → Bool) :
    ∀ cs rest evs b, gcSweep false z P cs = (rest, evs, .ok b) →
      allEntries P rest := by
  intro cs
  induction cs using listingInd with
  | hnil =>
    intro rest evs b h
    have h1 : FsListing.nil = rest := (Prod.ext_iff.mp h).1
    rw [← h1]; trivial
  | hcons n c tl ih =>
    intro rest evs b h
    by_cases hP : P n c
    · simp only [gcSweep, if_pos hP] at h
      rcases e1 : remove_recursive false c with ⟨res1, r1⟩
      rw [e1] at h
      cases r1 with
      | error err => simp at h
      | ok bc =>
        rcases e2 : gcSweep false z P tl with ⟨rest2, evs2, r2⟩
        rw [e2] at h
        cases r2 with
        | error err => simp at h
        | ok b2 =>
          have hres : res1 = none := rr_false_ok_none c res1 bc e1
          subst hres
          simp only [Prod.mk.injEq] at h
          rw [← h.1]
          exact ih rest2 evs2 b2 e2
    · simp only [gcSweep, if_neg hP] at h
      rcases e2 : gcSweep false z P tl with ⟨rest2, evs2, r2⟩
      rw [e2] at h
      simp only [Prod.mk.injEq] at h
      cases r2 with
      | error err => exact absurd h.2.2 (by simp)
      | ok b2 =>
        rw [← h.1]
        exact ⟨by simpa using hP, ih rest2 evs2 b2 e2⟩

/-- A sweep over a listing none of whose entries is selected removes
nothing, records nothing and frees nothing. -/
theorem sweep_noop (dry : Bool) (z : Zone) (P : Option String → FsNode → Bool) :
    ∀ cs, allEntries P cs → gcSweep dry z P cs = (cs, [], .ok 0) := by
  intro cs
  induction cs using listingInd with
  | hnil => intro h; rfl
  | hcons n c tl ih =>
    intro h
    obtain ⟨hP, htl⟩ := h
    simp only [gcSweep, if_neg (by simp [hP] : ¬ P n c = true)]
    rw [ih htl]

/-- A successful real sweep keeps (as first match) every entry it does not
select. -/
theorem sweep_preserve (z : Zone) (P : Option String → FsNode → Bool) :
    ∀ cs rest evs b, gcSweep false z P cs = (rest, evs, .ok b) →
      ∀ n c, findChild cs n = some c → P n c = false →
        findChild rest n = some c := by
  intro cs
  induction cs using listingInd with
  | hnil => intro rest evs b h n c hfc; simp [findChild] at hfc
  | hcons m cm tl ih =>
    intro rest evs b h n c hfc hP
    simp only [findChild] at hfc
    by_cases hm : (m == n) = true
    · rw [if_pos hm] at hfc
      obtain rfl : cm = c := by injection hfc
      have hPm : P m cm = false := by
        have : m = n := by simpa using hm
        rw [this]; exact hP
      simp only [gcSweep, if_neg (by simp [hPm] : ¬ P m cm = true)] at h
      rcases e2 : gcSweep false z P tl with ⟨rest2, evs2, r2⟩
      rw [e2] at h
      simp only [Prod.mk.injEq] at h
      rw [← h.1]
      simp only [findChild]
      rw [if_pos hm]
    · rw [if_neg hm] at hfc
      by_cases hPm : P m cm = true
      · simp only [gcSweep, if_pos hPm] at h
        rcases e1 : remove_recursive false cm with ⟨res1, r1⟩
        rw [e1] at h
        cases r1 with
        | error err => simp at h
        | ok bc =>
          rcases e2 : gcSweep false z P tl with ⟨rest2, evs2, r2⟩
          rw [e2] at h
          cases r2 with
          | error err => simp at h
          | ok b2 =>
            have hres : res1 = none := rr_false_ok_none cm res1 bc e1
            subst hres
            simp only [Prod.mk.injEq] at h
            rw [← h.1]
            exact ih rest2 evs2 b2 e2 n c hfc hP
      · simp only [gcSweep, if_neg hPm] at h
        rcases e2 : gcSweep false z P tl with ⟨rest2, evs2, r2⟩
        rw [e2] at h
        simp only [Prod.mk.injEq] at h
        cases r2 with
        | error err => exact absurd h.2.2 (by simp)
        | ok b2 =>
          rw [← h.1]
          simp only [findChild]
          rw [if_neg hm]
          exact ih rest2 evs2 b2 e2 n c hfc hP

/-- The zone loop leaves every non-zone name's resolution unchanged. -/
theorem zones_find_other (dry : Bool) :
    ∀ zs children cs' evs r, gcZones dry children zs = (cs', evs, r) →
      ∀ n, (∀ zn x y, (zn, x, y) ∈ zs → n ≠ some zn) →
        findChild cs' n = findChild children n := by
  intro zs
  induction zs with
  | nil =>
    intro children cs' evs r h n hn
    injection h with h1 h2
    rw [← h1]
  | cons hd zs' ih =>
    obtain ⟨zname, set, z⟩ := hd
    intro children cs' evs r h n hn
    have hne : n ≠ some zname := hn zname set z (List.mem_cons_self _ _)
    simp only [gcZones] at h
    split at h
    · rename_i zsize zrm zchildren hfc
      split at h
      · rename_i restR evs1 err hsw
        injection h with h1 h2
        rw [← h1]
        exact findChild_setChild_ne _ _ _ hne children
      · rename_i restR evs1 b1 hsw
        split at h
        · rename_i cs2 evs2 err hz2
          injection h with h1 h2
          rw [← h1]
          rw [ih _ cs2 evs2 _ hz2 n (fun zn x y hm => hn zn x y (List.mem_cons_of_mem _ hm))]
          exact findChild_setChild_ne _ _ _ hne children
        · rename_i cs2 evs2 b2 hz2
          injection h with h1 h2
          rw [← h1]
          rw [ih _ cs2 evs2 _ hz2 n (fun zn x y hm => hn zn x y (List.mem_cons_of_mem _ hm))]
          exact findChild_setChild_ne _ _ _ hne children
    · injection h with h1 h2
      rw [← h1]

/-- After a successful real zone loop, every listed zone resolves to a
directory all of whose remaining entries pass that zone's membership
test. -/
theorem zones_ok_char :
    ∀ (zs : List (String × List String × Zone)) children cs' evs b,
      (zs.map fun x => x.1).Nodup →
      gcZones false children zs = (cs', evs, .ok b) →
      ∀ zn set z, (zn, set, z) ∈ zs → ∃ zsize zrm restz,
        findChild cs' (some zn) = some (.dir zsize zrm restz) ∧
        allEntries (fun n _ => staleName set n) restz := by
  intro zs
  induction zs with
  | nil => intro children cs' evs b hnd h zn set z hm; simp at hm
  | cons hd zs' ih =>
    obtain ⟨zname, zset, zz⟩ := hd
    intro children cs' evs b hnd h zn set z hm
    simp only [gcZones] at h
    split at h
    · rename_i zsize zrm zchildren hfc
      split at h
      · rename_i restR evs1 err hsw
        simp at h
      · rename_i restR evs1 b1 hsw
        split at h
        · rename_i cs2 evs2 err hz2
          simp at h
        · rename_i cs2 evs2 b2 hz2
          injection h with hcs hrest
          have hnd' : (zs'.map fun x => x.1).Nodup := (List.nodup_cons.mp hnd).2
          rcases List.mem_cons.mp hm with hm1 | hm1
          · injection hm1 with ha hbc
            injection hbc with hb hc
            rw [ha, hb]
            refine ⟨zsize, zrm, restR, ?_, ?_⟩
            · rw [← hcs]
              rw [zones_find_other false zs' _ cs2 evs2 _ hz2 (some zname) ?_]
              · exact findChild_setChild_found children (some zname) _ _ hfc
              · intro zn' x y hmem heq
                have hzz : zname = zn' := by injection heq
                exact (List.nodup_cons.mp hnd).1
                  (by rw [hzz]; exact List.mem_map.mpr ⟨(zn', x, y), hmem, rfl⟩)
            · exact sweep_ok_keep zz (fun n _ => staleName zset n) zchildren restR evs1 b1 hsw
          · exact hcs ▸ ih _ cs2 evs2 b2 hnd' hz2 zn set z hm1
    · simp at h

/-- A zone loop over a listing whose zones are already clean is a no-op. -/
theorem zones_noop (dry : Bool) :
    ∀ (zs : List (String × List String × Zone)) cs,
      (∀ zn set z, (zn, set, z) ∈ zs → ∃ zsize zrm restz,
        findChild cs (some zn) = some (.dir zsize zrm restz) ∧
        allEntries (fun n _ => staleName set n) restz) →
      gcZones dry cs zs = (cs, [], .ok 0) := by
  intro zs
  induction zs with
  | nil => intro cs h; rfl
  | cons hd zs' ih =>
    obtain ⟨zname, set, z⟩ := hd
    intro cs h
    obtain ⟨zsize, zrm, restz, hfc, hall⟩ := h zname set z (List.mem_cons_self _ _)
    have hsw := sweep_noop dry z (fun n _ => staleName set n) restz hall
    have hset : setChild cs (some zname) (.dir zsize zrm restz) = cs :=
      setChild_id cs (some zname) _ hfc
    have hih := ih cs (fun zn s zz hm => h zn s zz (List.mem_cons_of_mem _ hm))
    simp [gcZones, hfc, hsw, hset, hih]

/-- C2: GC idempotence.  If a real `gc_artifects` pass succeeds, a second
real pass over its resulting tree with the same live sets removes nothing,
records no events and reports zero bytes freed: the first pass already
removed exactly the on-disk entries absent from the live sets. -/
theorem C2_idempotent (live : Reachable) (t t' : FsNode) (evs : List GcEvent)
    (b : Nat) (h : gc_artifects live false t = (t', evs, Except.ok b)) :
    gc_artifects live false t' = (t', [], Except.ok 0) := by
  cases t with
  | file _ _ => simp [gc_artifects] at h
  | symlink _ _ _ => simp [gc_artifects] at h
  | dir size rm children =>
    simp only [gc_artifects] at h
    split at h
    · rename_i cs1 evs1 err hz
      simp at h
    · rename_i cs1 evs1 b1 hz
      split at h
      · rename_i cs2 evs2 err hs2
        simp at h
      · rename_i cs2 evs2 b2 hs2
        injection h with ht hrest
        subst ht
        have hnd : (([(".fingerprint", live.fingerprints, Zone.fingerprint),
            ("build", live.builds, Zone.build),
            ("deps", live.deps, Zone.deps)]).map fun x => x.1).Nodup := by simp
        have hchar := zones_ok_char _ children cs1 evs1 b1 hnd hz
        have hchar2 : ∀ zn set z,
            (zn, set, z) ∈ [(".fingerprint", live.fingerprints, Zone.fingerprint),
              ("build", live.builds, Zone.build),
              ("deps", live.deps, Zone.deps)] →
            ∃ zsize zrm restz,
              findChild cs2 (some zn) = some (.dir zsize zrm restz) ∧
              allEntries (fun n _ => staleName set n) restz := by
          intro zn set z hm
          obtain ⟨zsize, zrm, restz, hfc1, hall⟩ := hchar zn set z hm
          refine ⟨zsize, zrm, restz, ?_, hall⟩
          exact sweep_preserve .top (upliftStale live.uplifts) cs1 cs2 evs2 b2 hs2
            (some zn) _ hfc1 rfl
        have hzn := zones_noop false _ cs2 hchar2
        have hall2 : allEntries (upliftStale live.uplifts) cs2 :=
          sweep_ok_keep .top _ cs1 cs2 evs2 b2 hs2
        have hsn := sweep_noop false .top (upliftStale live.uplifts) cs2 hall2
        simp [gc_artifects, hzn, hsn]

/-- C2 witness: the second real pass over the result of the `wfT` pass is a
no-op. -/
theorem C2_idempotent_witness :
    gc_artifects liveT false (gc_artifects liveT false wfT).1 =
      ((gc_artifects liveT false wfT).1, [], Except.ok 0) :=
  C2_idempotent liveT wfT (gc_artifects liveT false wfT).1
    (gc_artifects liveT false wfT).2.1 34 rfl

/-- Sorting is invariant under permutation of the input: the sorted list of
dependency identifiers does not depend on edge order. -/
theorem mergeSort_nat_perm (l₁ l₂ : List Nat) (h : l₁.Perm l₂) :
    l₁.mergeSort Nat.ble = l₂.mergeSort Nat.ble := by
  have htrans : ∀ a b c : Nat, Nat.ble a b = true → Nat.ble b c = true →
      Nat.ble a c = true := by
    intro a b c hab hbc
    simp only [Nat.ble_eq] at *
    omega
  have htotal : ∀ a b : Nat, (Nat.ble a b || Nat.ble b a) = true := by
    intro a b
    rcases Nat.le_total a b with hle | hle <;> simp [hle]
  have hs1 : List.Sorted (· ≤ ·) (l₁.mergeSort Nat.ble) :=
    (List.sorted_mergeSort htrans htotal l₁).imp (by simp)
  have hs2 : List.Sorted (· ≤ ·) (l₂.mergeSort Nat.ble) :=
    (List.sorted_mergeSort htrans htotal l₂).imp (by simp)
  exact List.eq_of_perm_of_sorted
    ((List.mergeSort_perm l₁ Nat.ble).trans
      (h.trans (List.mergeSort_perm l₂ Nat.ble).symm)) hs1 hs2

/-- One unfolding step of `metadata_of` is determined by the unit's data,
its dependencies' identifiers and the context's global inputs. -/
theorem metadata_of_congr_step (cx₁ cx₂ : HCtx) (hg : globalsEq cx₁ cx₂)
    (fuel w : Nat) (hunits : cx₁.units.get? w = cx₂.units.get? w)
    (hdeps : ∀ unit, cx₁.units.get? w = some unit → ∀ d ∈ unit.deps,
      metadata_of cx₁ fuel d = metadata_of cx₂ fuel d) :
    metadata_of cx₁ (fuel + 1) w = metadata_of cx₂ (fuel + 1) w := by
  obtain ⟨hlto, hpre, hsep, hvv, hhost, hww, hch⟩ := hg
  simp only [metadata_of, ← hunits]
  cases hgu : cx₁.units.get? w with
  | none => rfl
  | some unit =>
    have hdm : (unit.deps.map (fun d => encodeOptMeta (metadata_of cx₁ fuel d)))
        = (unit.deps.map (fun d => encodeOptMeta (metadata_of cx₂ fuel d))) :=
      List.map_congr_left (fun d hd => by rw [hdeps unit hgu d hd])
    simp [should_use_metadata, hash_rustc_version, hdm, hlto, hpre, hsep, hvv,
      hhost, hww, hch]

/-- One unfolding step when the two contexts' unit differs only in
dependency-edge order. -/
theorem metadata_of_congr_perm (cx₁ cx₂ : HCtx) (hg : globalsEq cx₁ cx₂)
    (fuel w : Nat) (u₁ u₂ : HUnit)
    (h1 : cx₁.units.get? w = some u₁) (h2 : cx₂.units.get? w = some u₂)
    (hsame : sameButDepOrder u₁ u₂)
    (hdeps : ∀ d, metadata_of cx₁ fuel d = metadata_of cx₂ fuel d) :
    metadata_of cx₁ (fuel + 1) w = metadata_of cx₂ (fuel + 1) w := by
  obtain ⟨hlto, hpre, hsep, hvv, hhost, hww, hch⟩ := hg
  obtain ⟨e1, e2, e3, e4, e5, e6, e7, e8, e9, e10, e11, e12, e13, e14, eperm⟩ := hsame
  have hf : (fun d => encodeOptMeta (metadata_of cx₁ fuel d))
      = (fun d => encodeOptMeta (metadata_of cx₂ fuel d)) :=
    funext fun d => by rw [hdeps d]
  have hsort : (u₁.deps.map (fun d => encodeOptMeta (metadata_of cx₁ fuel d))).mergeSort
        Nat.ble
      = (u₂.deps.map (fun d => encodeOptMeta (metadata_of cx₂ fuel d))).mergeSort
        Nat.ble := by
    rw [hf]
    exact mergeSort_nat_perm _ _ (eperm.map _)
  have h1' : cx₁.units[w]? = some u₁ := by simpa using h1
  have h2' : cx₂.units[w]? = some u₂ := by simpa using h2
  simp [metadata_of, h1', h2', should_use_metadata, hash_rustc_version, hsort,
    e1, e2, e3, e4, e5, e6, e7, e8, e9, e10, e11, e12, e13, e14,
    hlto, hpre, hsep, hvv, hhost, hww, hch]

/-- C5: fingerprint determinism and dependency-order independence.  First:
two contexts with equal global inputs that agree on a unit's transitive
dependency closure assign it the same identifier — the identifier is a
function of the unit and its closure alone, so recomputation yields the
identical value.  Second: permuting one unit's dependency edge list changes
no unit's identifier, because each dependency's recursively computed
identifier is sorted before being hashed. -/
theorem C5_metadata_determinism :
    (∀ cx₁ cx₂ : HCtx, globalsEq cx₁ cx₂ → ∀ fuel u, agreeTo cx₁ cx₂ fuel u →
      metadata_of cx₁ fuel u = metadata_of cx₂ fuel u) ∧
    (∀ cx₁ cx₂ : HCtx, globalsEq cx₁ cx₂ → ∀ j (u₁ u₂ : HUnit),
      (∀ i, i ≠ j → cx₁.units.get? i = cx₂.units.get? i) →
      cx₁.units.get? j = some u₁ → cx₂.units.get? j = some u₂ →
      sameButDepOrder u₁ u₂ →
      ∀ fuel w, metadata_of cx₁ fuel w = metadata_of cx₂ fuel w) := by
  constructor
  · intro cx₁ cx₂ hg fuel
    induction fuel with
    | zero => intro u ha; rfl
    | succ fuel ih =>
      intro u ha
      obtain ⟨hu, hdeps⟩ := ha
      exact metadata_of_congr_step cx₁ cx₂ hg fuel u hu
        (fun unit hgu d hd => ih d (hdeps unit hgu d hd))
  · intro cx₁ cx₂ hg j u₁ u₂ hothers h1 h2 hsame fuel
    induction fuel with
    | zero => intro w; rfl
    | succ fuel ih =>
      intro w
      by_cases hw : w = j
      · subst hw
        exact metadata_of_congr_perm cx₁ cx₂ hg fuel w u₁ u₂ h1 h2 hsame ih
      · exact metadata_of_congr_step cx₁ cx₂ hg fuel w (hothers w hw)
          (fun unit hgu d hd => ih d)

/-- C5 witness: permuting unit 0's dependency edges (`[1,2]` vs `[2,1]`)
leaves its fingerprint unchanged. -/
theorem C5_metadata_determinism_witness :
    metadata_of cxA 3 0 = metadata_of cxB 3 0 :=
  C5_metadata_determinism.2 cxA cxB ⟨rfl, rfl, rfl, rfl, rfl, rfl, rfl⟩
    0 (huRoot [1, 2]) (huRoot [2, 1])
    (fun i hi =>
      match i, hi with
      | 0, hi => absurd rfl hi
      | Nat.succ i, _ => rfl)
    rfl rfl
    ⟨rfl, rfl, rfl, rfl, rfl, rfl, rfl, rfl, rfl, rfl, rfl, rfl, rfl, rfl,
      by decide⟩
    3 0

theorem ltoMerge_assoc (a b c : Lto) :
    ltoMerge (ltoMerge a b) c = ltoMerge a (ltoMerge b c) := by
  cases a <;> cases b <;> cases c <;> rfl

theorem ltoMerge_idem (a : Lto) : ltoMerge a a = a := by
  cases a <;> rfl

theorem stable_self (a : Lto) : Stable a a := ltoMerge_idem a

theorem stable_trans {a b c : Lto} (h1 : Stable a b) (h2 : Stable b c) :
    Stable a c := by
  unfold Stable at *
  calc ltoMerge a c = ltoMerge a (ltoMerge b c) := by rw [h2]
    _ = ltoMerge (ltoMerge a b) c := (ltoMerge_assoc a b c).symm
    _ = ltoMerge b c := by rw [h1]
    _ = c := h2

theorem stable_merge_self (l old : Lto) : Stable l (ltoMerge l old) := by
  unfold Stable
  rw [← ltoMerge_assoc, ltoMerge_idem]

theorem ltoMerge_comm_R {a b : Lto} (ha : Rdom a) (hb : Rdom b) :
    ltoMerge a b = ltoMerge b a := by
  rcases ha with rfl | rfl | rfl <;> rcases hb with rfl | rfl | rfl <;> rfl

theorem Rdom_merge {a b : Lto} (ha : Rdom a) (hb : Rdom b) :
    Rdom (ltoMerge a b) := by
  rcases ha with rfl | rfl | rfl <;> rcases hb with rfl | rfl | rfl <;>
    first
      | exact Or.inl rfl
      | exact Or.inr (Or.inl rfl)
      | exact Or.inr (Or.inr rfl)

theorem stable_Rdom {x old : Lto} (hold : Rdom old) (h : Stable x old) :
    Rdom x := by
  rcases hold with rfl | rfl | rfl <;> cases x <;>
    first
      | exact Or.inl rfl
      | exact Or.inr (Or.inl rfl)
      | exact Or.inr (Or.inr rfl)
      | (exfalso; simp [Stable, ltoMerge] at h)

/-- Growth preserves stability: whatever was stable under the stored value
stays stable after a further merge is stored. -/
theorem stable_growth {x l old : Lto} (hx : Stable x old)
    (hcase : (Rdom x ∧ Rdom l) ∨ l = old) :
    Stable x (ltoMerge l old) := by
  rcases hcase with ⟨hxr, hlr⟩ | rfl
  · unfold Stable at *
    calc ltoMerge x (ltoMerge l old)
        = ltoMerge (ltoMerge x l) old := (ltoMerge_assoc x l old).symm
      _ = ltoMerge (ltoMerge l x) old := by rw [ltoMerge_comm_R hxr hlr]
      _ = ltoMerge l (ltoMerge x old) := ltoMerge_assoc l x old
      _ = ltoMerge l old := by rw [hx]
  · rw [ltoMerge_idem]
    exact hx

/-- A non-`constUnit` unit's computed requirement is always one of the three
`Rdom` values, whatever the parent pushed. -/
theorem transfer_Rdom (u : LUnit) (p : Lto) (hc : constUnit u = false) :
    Rdom (transfer u p) := by
  have hor := Bool.or_eq_false_iff.mp hc
  have hfh : u.forHost = false := hor.1
  have hal : (modeCrateTypes u).all CrateType.canLto = false := hor.2
  have hlw : Rdom (lto_when_needs_object (modeCrateTypes u)) := by
    unfold lto_when_needs_object
    split
    · exact Or.inl rfl
    · exact Or.inr (Or.inr rfl)
  simp only [transfer, hfh, hal, Bool.false_eq_true, if_false]
  cases p <;> cases hno : needs_object (modeCrateTypes u) <;>
    simp only [hno] <;>
    first
      | exact Or.inl rfl
      | exact Or.inr (Or.inl rfl)
      | exact Or.inr (Or.inr rfl)
      | exact hlw

/-- A `constUnit`'s computed requirement ignores the parent's value. -/
theorem transfer_const (u : LUnit) (p : Lto) (hc : constUnit u = true) :
    transfer u p = transfer u Lto.off := by
  rcases Bool.or_eq_true_iff.mp hc with hfh | hal
  · simp [transfer, hfh]
  · cases hfh : u.forHost <;> simp [transfer, hfh, hal]

/-- Monotonicity of the transfer function on the `Rdom` sub-lattice. -/
theorem transfer_stable (u : LUnit) {a b : Lto} (hc : constUnit u = false)
    (ha : Rdom a) (hb : Rdom b) (hs : Stable a b) :
    Stable (transfer u a) (transfer u b) := by
  have hor := Bool.or_eq_false_iff.mp hc
  have hfh : u.forHost = false := hor.1
  have hal : (modeCrateTypes u).all CrateType.canLto = false := hor.2
  simp only [transfer, hfh, hal, Bool.false_eq_true, if_false]
  rcases ha with rfl | rfl | rfl <;> rcases hb with rfl | rfl | rfl <;>
    first
      | (cases hno : needs_object (modeCrateTypes u) <;>
          simp only [hno] <;>
          first
            | exact stable_self _
            | (unfold lto_when_needs_object
               split <;> rfl)
            | rfl)
      | (exfalso
         simp only [Stable, ltoMerge] at hs
         exact Lto.noConfusion hs)

theorem lookup_insert_self (m : LtoMap) (u : Nat) (v : Lto) :
    lookupLto (insertLto m u v) u = some v := by
  simp [lookupLto, insertLto, List.find?]

theorem lookup_insert_ne (m : LtoMap) (u w : Nat) (v : Lto) (h : w ≠ u) :
    lookupLto (insertLto m u v) w = lookupLto m w := by
  have hb : (u == w) = false := beq_eq_false_iff_ne.mpr (fun e => h e.symm)
  simp [lookupLto, insertLto, List.find?, hb]

theorem MapGrow_refl (m : LtoMap) : MapGrow m m :=
  fun _ v h => ⟨v, h, fun _ hx => hx⟩

theorem MapGrow_trans {m₁ m₂ m₃ : LtoMap} (h1 : MapGrow m₁ m₂)
    (h2 : MapGrow m₂ m₃) : MapGrow m₁ m₃ := by
  intro u v hv
  obtain ⟨v', hv', hs'⟩ := h1 u v hv
  obtain ⟨v'', hv'', hs''⟩ := h2 u v' hv'
  exact ⟨v'', hv'', fun x hx => hs'' x (hs' x hx)⟩

theorem g4_edge_rank : ∀ u d, d ∈ g4.depsOf u → rank4 u < rank4 d := by
  intro u d hd
  rcases u with _|_|_|_|n <;>
    simp [LGraph.depsOf, g4] at hd <;> subst hd <;> decide

theorem g4_reach_rank : ∀ u w, GReaches g4 u w → rank4 u < rank4 w := by
  intro u w h
  induction h with
  | dep hd => exact g4_edge_rank _ _ hd
  | tail hd _ ih => exact lt_trans (g4_edge_rank _ _ hd) ih

theorem g4_acyclic : LAcyclic g4 := by
  intro u hu
  exact absurd (g4_reach_rank u u hu) (lt_irrefl _)

/-- C4: counterexample.  In the diamond `g4` the only two root-to-leaf
paths both push `OnlyObject` onto the dylib leaf `3`, and the merge of the
path values is `OnlyObject`; yet the propagator assigns the leaf
`ObjectAndBitcode`, because unit `2`'s stored value grows across the two
root passes and the second pass re-pushes the merged (not per-path) value.
So the final assignment is not the merge of the per-path contributions. -/
theorem C4_counterexample :
    (generate g4 10).bind (fun m => lookupLto m 3) = some Lto.objectAndBitcode ∧
    RootPath g4 3 [0, 2, 3] ∧ RootPath g4 3 [1, 2, 3] ∧
    rootPathValue g4 [0, 2, 3] = some Lto.onlyObject ∧
    rootPathValue g4 [1, 2, 3] = some Lto.onlyObject ∧
    ltoMerge Lto.onlyObject Lto.onlyObject = Lto.onlyObject ∧
    Lto.objectAndBitcode ≠ Lto.onlyObject :=
  ⟨rfl,
   RootPath.step (RootPath.step (RootPath.root (by decide)) (by decide))
     (by decide),
   RootPath.step (RootPath.step (RootPath.root (by decide)) (by decide))
     (by decide),
   rfl, rfl, rfl, fun h => Lto.noConfusion h⟩

theorem insert_loc (m : LtoMap) (u : Nat) (v : Lto) :
    ∀ w, lookupLto (insertLto m u v) w ≠ lookupLto m w → w = u := by
  intro w hw
  by_cases hwu : w = u
  · exact hwu
  · rw [lookup_insert_ne _ _ _ _ hwu] at hw
    exact absurd rfl hw

/-- Invariant propagation through the dependency loop, generic in the
single-unit call: if every successful `calc1` call preserves the map
invariant and settled edges, grows the map, settles the called unit under
the pushed value, and only changes units reachable from the called one,
then the loop over `ds` does the same for every member of `ds`. -/
theorem calcDepsF_ok (g : LGraph)
    (calc1 : LtoMap → Nat → Lto → Option LtoMap)
    (hP : ∀ map u pv map' (X : Nat → Nat → Prop), MapInv g map →
      EdgesOKexc g map X → calc1 map u pv = some map' →
      MapInv g map' ∧ EdgesOKexc g map' X ∧ MapGrow map map' ∧
      (∃ unit v', g.units.get? u = some unit ∧ lookupLto map' u = some v' ∧
        Stable (transfer unit pv) v') ∧
      (∀ w, lookupLto map' w ≠ lookupLto map w → w = u ∨ GReaches g u w)) :
    ∀ ds map pv map' (X : Nat → Nat → Prop), MapInv g map →
      EdgesOKexc g map X → calcDepsF calc1 map ds pv = some map' →
      MapInv g map' ∧ EdgesOKexc g map' X ∧ MapGrow map map' ∧
      (∀ d ∈ ds, ∃ ud vd, g.units.get? d = some ud ∧
        lookupLto map' d = some vd ∧ Stable (transfer ud pv) vd) ∧
      (∀ w, lookupLto map' w ≠ lookupLto map w →
        ∃ d ∈ ds, w = d ∨ GReaches g d w) := by
  intro ds
  induction ds with
  | nil =>
    intro map pv map' X hinv hedg heq
    simp only [calcDepsF] at heq
    cases heq
    exact ⟨hinv, hedg, MapGrow_refl map, by simp, fun w hw => absurd rfl hw⟩
  | cons d ds' ih =>
    intro map pv map' X hinv hedg heq
    simp only [calcDepsF] at heq
    cases hc1 : calc1 map d pv with
    | none => simp [hc1] at heq
    | some m₁ =>
      simp only [hc1] at heq
      obtain ⟨hA1, hB1, hC1, hD1, hE1⟩ := hP map d pv m₁ X hinv hedg hc1
      obtain ⟨hA, hB, hC, hD, hE⟩ := ih m₁ pv map' X hA1 hB1 heq
      refine ⟨hA, hB, MapGrow_trans hC1 hC, ?_, ?_⟩
      · intro e he
        rcases List.mem_cons.mp he with rfl | he'
        · obtain ⟨ud, vd, hud, hvd, hst⟩ := hD1
          obtain ⟨vd', hvd', hgrow⟩ := hC e vd hvd
          exact ⟨ud, vd', hud, hvd', hgrow _ hst⟩
        · exact hD e he'
      · intro w hw
        by_cases h2 : lookupLto map' w = lookupLto m₁ w
        · rw [h2] at hw
          rcases hE1 w hw with rfl | hr
          · exact ⟨w, List.mem_cons_self w ds', Or.inl rfl⟩
          · exact ⟨d, List.mem_cons_self d ds', Or.inr hr⟩
        · obtain ⟨d', hd', hor⟩ := hE w h2
          exact ⟨d', List.mem_cons_of_mem d hd', hor⟩

/-- After the dependency loop of one `calculate` step: the unit's stored
value is untouched by the loop (acyclicity), the excused edges out of `u`
are re-established from the loop's conclusions, and changes are confined
to `u` and its reachable set. -/
theorem calc_post (g : LGraph) (hac : LAcyclic g) (map map₁ map' : LtoMap)
    (u : Nat) (nv : Lto) (X : Nat → Nat → Prop)
    (hins : lookupLto map₁ u = some nv)
    (hB' : EdgesOKexc g map' (fun a e => X a e ∨ (a = u ∧ e ∈ g.depsOf u)))
    (hC : MapGrow map₁ map')
    (hD : ∀ d ∈ g.depsOf u, ∃ ud vd, g.units.get? d = some ud ∧
      lookupLto map' d = some vd ∧ Stable (transfer ud nv) vd)
    (hE : ∀ w, lookupLto map' w ≠ lookupLto map₁ w →
      ∃ d ∈ g.depsOf u, w = d ∨ GReaches g d w)
    (hG₀ : MapGrow map map₁)
    (hloc₀ : ∀ w, lookupLto map₁ w ≠ lookupLto map w → w = u) :
    lookupLto map' u = some nv ∧
    EdgesOKexc g map' X ∧ MapGrow map map' ∧
    (∀ w, lookupLto map' w ≠ lookupLto map w → w = u ∨ GReaches g u w) := by
  have hufix : lookupLto map' u = some nv := by
    by_cases h : lookupLto map' u = lookupLto map₁ u
    · rw [h]; exact hins
    · exfalso
      obtain ⟨d, hd, hor⟩ := hE u h
      rcases hor with rfl | hr
      · exact hac u (GReaches.dep hd)
      · exact hac u (GReaches.tail hd hr)
  refine ⟨hufix, ?_, MapGrow_trans hG₀ hC, ?_⟩
  · intro a v ha e he hnX
    by_cases hae : a = u ∧ e ∈ g.depsOf u
    · obtain ⟨rfl, he'⟩ := hae
      rw [ha] at hufix
      have hv : v = nv := Option.some.inj hufix
      obtain ⟨ud, vd, hud, hvd, hst⟩ := hD e he'
      refine ⟨ud, vd, hud, hvd, ?_⟩
      rw [hv]
      exact hst
    · exact hB' a v ha e he (fun hor => hor.elim hnX hae)
  · intro w hw
    by_cases h2 : lookupLto map' w = lookupLto map₁ w
    · rw [h2] at hw
      exact Or.inl (hloc₀ w hw)
    · obtain ⟨d, hd, hor⟩ := hE w h2
      rcases hor with rfl | hr
      · exact Or.inr (GReaches.dep hd)
      · exact Or.inr (GReaches.tail hd hr)

/-- The single-unit invariant of the propagator: a successful `calculate`
preserves the map invariant and the settled edges, only grows stored
values, leaves the visited unit stable under the pushed value, and only
changes the visited unit and units reachable from it. -/
theorem calc_ok (g : LGraph) (hac : LAcyclic g) :
    ∀ (fuel : Nat) map u pv map' (X : Nat → Nat → Prop), MapInv g map →
      EdgesOKexc g map X → calculate g fuel map u pv = some map' →
      MapInv g map' ∧ EdgesOKexc g map' X ∧ MapGrow map map' ∧
      (∃ unit v', g.units.get? u = some unit ∧ lookupLto map' u = some v' ∧
        Stable (transfer unit pv) v') ∧
      (∀ w, lookupLto map' w ≠ lookupLto map w → w = u ∨ GReaches g u w) := by
  intro fuel
  induction fuel with
  | zero =>
    intro map u pv map' X _ _ heq
    exact absurd heq (by simp [calculate])
  | succ fuel ih =>
    intro map u pv map' X hinv hedg heq
    have hQ := calcDepsF_ok g (calculate g fuel) ih
    cases hu : g.units.get? u with
    | none =>
      simp only [calculate, hu] at heq
      exact absurd heq (by simp)
    | some unit =>
      simp only [calculate, hu] at heq
      cases hold : lookupLto map u with
      | none =>
        simp only [hold] at heq
        have hinv₁ : MapInv g (insertLto map u (transfer unit pv)) := by
          intro w v hw
          by_cases hwu : w = u
          · subst hwu
            rw [lookup_insert_self] at hw
            have hv : v = transfer unit pv := (Option.some.inj hw).symm
            subst hv
            refine ⟨unit, hu, ?_⟩
            cases hc : constUnit unit
            · simp only [hc, Bool.false_eq_true, if_false]
              exact transfer_Rdom unit pv hc
            · simp only [hc, if_true]
              exact transfer_const unit pv hc
          · rw [lookup_insert_ne _ _ _ _ hwu] at hw
            exact hinv w v hw
        have hedg₁ : EdgesOKexc g (insertLto map u (transfer unit pv))
            (fun a e => X a e ∨ (a = u ∧ e ∈ g.depsOf u)) := by
          intro a v ha e he hnX'
          by_cases hau : a = u
          · exact absurd (Or.inr ⟨hau, hau ▸ he⟩) hnX'
          · rw [lookup_insert_ne _ _ _ _ hau] at ha
            obtain ⟨ud, vd, hud, hvd, hst⟩ :=
              hedg a v ha e he (fun hx => hnX' (Or.inl hx))
            by_cases heu : e = u
            · subst heu
              rw [hold] at hvd
              exact absurd hvd (by simp)
            · refine ⟨ud, vd, hud, ?_, hst⟩
              rw [lookup_insert_ne _ _ _ _ heu]
              exact hvd
        obtain ⟨hA, hB', hC, hD, hE⟩ :=
          hQ (g.depsOf u) (insertLto map u (transfer unit pv))
            (transfer unit pv) map'
            (fun a e => X a e ∨ (a = u ∧ e ∈ g.depsOf u)) hinv₁ hedg₁ heq
        have hG₀ : MapGrow map (insertLto map u (transfer unit pv)) := by
          intro w v hw
          by_cases hwu : w = u
          · subst hwu
            rw [hold] at hw
            exact absurd hw (by simp)
          · refine ⟨v, ?_, fun x hx => hx⟩
            rw [lookup_insert_ne _ _ _ _ hwu]
            exact hw
        obtain ⟨hufix, hB, hG, hL⟩ :=
          calc_post g hac map (insertLto map u (transfer unit pv)) map' u
            (transfer unit pv) X (lookup_insert_self _ _ _) hB' hC hD hE hG₀
            (insert_loc _ _ _)
        exact ⟨hA, hB, hG, ⟨unit, transfer unit pv, rfl, hufix, stable_self _⟩,
          hL⟩
      | some old =>
        simp only [hold] at heq
        by_cases hres : ltoMerge (transfer unit pv) old = old
        · rw [if_pos hres] at heq
          cases heq
          exact ⟨hinv, hedg, MapGrow_refl map, ⟨unit, old, rfl, hold, hres⟩,
            fun w hw => absurd rfl hw⟩
        · rw [if_neg hres] at heq
          obtain ⟨unit₀, hu₀, hprop⟩ := hinv u old hold
          rw [hu] at hu₀
          have hueq : unit₀ = unit := (Option.some.inj hu₀).symm
          subst hueq
          cases hc : constUnit unit₀ with
          | true =>
            rw [hc] at hprop
            simp only [if_true] at hprop
            have hlo : transfer unit₀ pv = old := by
              rw [transfer_const unit₀ pv hc, ← hprop]
            exact absurd (by rw [hlo, ltoMerge_idem]) hres
          | false =>
            rw [hc] at hprop
            simp only [Bool.false_eq_true, if_false] at hprop
            have hRl : Rdom (transfer unit₀ pv) := transfer_Rdom unit₀ pv hc
            have hinv₂ : MapInv g
                (insertLto map u (ltoMerge (transfer unit₀ pv) old)) := by
              intro w v hw
              by_cases hwu : w = u
              · subst hwu
                rw [lookup_insert_self] at hw
                have hv : v = ltoMerge (transfer unit₀ pv) old :=
                  (Option.some.inj hw).symm
                subst hv
                refine ⟨unit₀, hu, ?_⟩
                simp only [hc, Bool.false_eq_true, if_false]
                exact Rdom_merge hRl hprop
              · rw [lookup_insert_ne _ _ _ _ hwu] at hw
                exact hinv w v hw
            have hedg₂ : EdgesOKexc g
                (insertLto map u (ltoMerge (transfer unit₀ pv) old))
                (fun a e => X a e ∨ (a = u ∧ e ∈ g.depsOf u)) := by
              intro a v ha e he hnX'
              by_cases hau : a = u
              · exact absurd (Or.inr ⟨hau, hau ▸ he⟩) hnX'
              · rw [lookup_insert_ne _ _ _ _ hau] at ha
                obtain ⟨ud, vd, hud, hvd, hst⟩ :=
                  hedg a v ha e he (fun hx => hnX' (Or.inl hx))
                by_cases heu : e = u
                · subst heu
                  rw [hold] at hvd
                  have hvd' : old = vd := Option.some.inj hvd
                  subst hvd'
                  rw [hu] at hud
                  have hud' : unit₀ = ud := Option.some.inj hud
                  subst hud'
                  refine ⟨unit₀, ltoMerge (transfer unit₀ pv) old, hu,
                    lookup_insert_self _ _ _, ?_⟩
                  exact stable_growth hst
                    (Or.inl ⟨transfer_Rdom unit₀ v hc, hRl⟩)
                · refine ⟨ud, vd, hud, ?_, hst⟩
                  rw [lookup_insert_ne _ _ _ _ heu]
                  exact hvd
            obtain ⟨hA, hB', hC, hD, hE⟩ :=
              hQ (g.depsOf u)
                (insertLto map u (ltoMerge (transfer unit₀ pv) old))
                (ltoMerge (transfer unit₀ pv) old) map'
                (fun a e => X a e ∨ (a = u ∧ e ∈ g.depsOf u)) hinv₂ hedg₂ heq
            have hG₀ : MapGrow map
                (insertLto map u (ltoMerge (transfer unit₀ pv) old)) := by
              intro w v hw
              by_cases hwu : w = u
              · subst hwu
                rw [hold] at hw
                have hv : old = v := Option.some.inj hw
                subst hv
                refine ⟨ltoMerge (transfer unit₀ pv) old,
                  lookup_insert_self _ _ _, fun x hx => ?_⟩
                exact stable_growth hx (Or.inl ⟨stable_Rdom hprop hx, hRl⟩)
              · refine ⟨v, ?_, fun x hx => hx⟩
                rw [lookup_insert_ne _ _ _ _ hwu]
                exact hw
            obtain ⟨hufix, hB, hG, hL⟩ :=
              calc_post g hac map
                (insertLto map u (ltoMerge (transfer unit₀ pv) old)) map' u
                (ltoMerge (transfer unit₀ pv) old) X (lookup_insert_self _ _ _)
                hB' hC hD hE hG₀ (insert_loc _ _ _)
            exact ⟨hA, hB, hG,
              ⟨unit₀, ltoMerge (transfer unit₀ pv) old, rfl, hufix,
                stable_merge_self (transfer unit₀ pv) old⟩, hL⟩

theorem generateAux_ok (g : LGraph) (hac : LAcyclic g) (fuel : Nat) :
    ∀ rs map m, MapInv g map → EdgesOKexc g map (fun _ _ => False) →
      generateAux g fuel map rs = some m →
      MapInv g m ∧ EdgesOKexc g m (fun _ _ => False) ∧ MapGrow map m ∧
      ∀ r ∈ rs, ∃ unit vr, g.units.get? r = some unit ∧
        lookupLto m r = some vr ∧ Stable (transfer unit (rootLto unit)) vr := by
  intro rs
  induction rs with
  | nil =>
    intro map m hinv hedg heq
    simp only [generateAux] at heq
    cases heq
    exact ⟨hinv, hedg, MapGrow_refl map, by simp⟩
  | cons r rs' ih =>
    intro map m hinv hedg heq
    simp only [generateAux] at heq
    cases hu : g.units.get? r with
    | none =>
      have hu' : g.units[r]? = none := by simpa using hu
      simp [hu'] at heq
    | some unit =>
      simp only [hu] at heq
      cases hc : calculate g fuel map r (rootLto unit) with
      | none => simp [hc] at heq
      | some m₁ =>
        simp only [hc] at heq
        obtain ⟨hA1, hB1, hC1, hD1, -⟩ :=
          calc_ok g hac fuel map r (rootLto unit) m₁ (fun _ _ => False)
            hinv hedg hc
        obtain ⟨hA, hB, hC, hroots'⟩ := ih m₁ m hA1 hB1 heq
        refine ⟨hA, hB, MapGrow_trans hC1 hC, ?_⟩
        intro r' hr'
        rcases List.mem_cons.mp hr' with rfl | hr''
        · obtain ⟨unit', v', hu', hv', hst⟩ := hD1
          rw [hu] at hu'
          have he : unit = unit' := Option.some.inj hu'
          subst he
          obtain ⟨v'', hv'', hgrow⟩ := hC r' v' hv'
          exact ⟨unit, v'', hu, hv'', hgrow _ hst⟩
        · exact hroots' r' hr''

theorem generate_ok (g : LGraph) (hac : LAcyclic g) (fuel : Nat) (m : LtoMap)
    (hgen : generate g fuel = some m) :
    MapInv g m ∧ EdgesOKexc g m (fun _ _ => False) ∧
    ∀ r ∈ g.roots, ∃ unit vr, g.units.get? r = some unit ∧
      lookupLto m r = some vr ∧ Stable (transfer unit (rootLto unit)) vr := by
  have h0 : MapInv g ([] : LtoMap) := by
    intro u v h
    simp [lookupLto, List.find?] at h
  have h1 : EdgesOKexc g ([] : LtoMap) (fun _ _ => False) := by
    intro u v h
    simp [lookupLto, List.find?] at h
  simp only [generate] at hgen
  obtain ⟨hA, hB, -, hroots⟩ := generateAux_ok g hac fuel g.roots [] m h0 h1 hgen
  exact ⟨hA, hB, hroots⟩

theorem pathValue_append (g : LGraph) (d : Nat) :
    ∀ (ws : List Nat) (v : Lto), pathValue g (ws ++ [d]) v =
      (pathValue g ws v).bind (fun v' =>
        (g.units.get? d).map (fun ud => transfer ud v')) := by
  intro ws
  induction ws with
  | nil =>
    intro v
    simp only [List.nil_append, pathValue]
    cases g.units.get? d <;> simp [pathValue]
  | cons w ws' ih =>
    intro v
    simp only [List.cons_append, pathValue]
    cases g.units.get? w <;> simp [ih]

theorem rootPath_ne (g : LGraph) (u : Nat) (π : List Nat)
    (h : RootPath g u π) : π ≠ [] := by
  cases h with
  | root _ => simp
  | step _ _ => simp

theorem rootPathValue_append (g : LGraph) (π : List Nat) (hne : π ≠ [])
    (d : Nat) :
    rootPathValue g (π ++ [d]) = (rootPathValue g π).bind (fun v =>
      (g.units.get? d).map (fun ud => transfer ud v)) := by
  cases π with
  | nil => exact absurd rfl hne
  | cons r t =>
    simp only [List.cons_append, rootPathValue]
    cases g.units.get? r with
    | none => rfl
    | some runit => exact pathValue_append g d (r :: t) (rootLto runit)

/-- Along any root path the pushed value is always absorbed by the stored
value: the stored requirement is an upper bound (in the merge-absorption
order) of every single path's contribution. -/
theorem path_stable (g : LGraph) (hac : LAcyclic g) (m : LtoMap)
    (hinv : MapInv g m) (hedg : EdgesOKexc g m (fun _ _ => False))
    (hroots : ∀ r ∈ g.roots, ∃ unit vr, g.units.get? r = some unit ∧
      lookupLto m r = some vr ∧ Stable (transfer unit (rootLto unit)) vr) :
    ∀ u π, RootPath g u π → ∀ pv, rootPathValue g π = some pv →
      ∃ unit v prev, g.units.get? u = some unit ∧ pv = transfer unit prev ∧
        lookupLto m u = some v ∧ Stable pv v := by
  intro u π hp
  induction hp with
  | root hr =>
    rename_i r
    intro pv hpv
    obtain ⟨unit, vr, hu, hv, hst⟩ := hroots r hr
    simp only [rootPathValue, hu, pathValue] at hpv
    have hpv' : transfer unit (rootLto unit) = pv := Option.some.inj hpv
    subst hpv'
    exact ⟨unit, vr, rootLto unit, hu, rfl, hv, hst⟩
  | step hp' hd ih =>
    rename_i u' d π'
    intro pvd hpvd
    rw [rootPathValue_append g π' (rootPath_ne g u' π' hp') d] at hpvd
    cases hrp : rootPathValue g π' with
    | none => rw [hrp] at hpvd; simp at hpvd
    | some pvu =>
      rw [hrp] at hpvd
      have hpvd' : ∃ ud, g.units.get? d = some ud ∧ transfer ud pvu = pvd := by
        simpa [Option.map_eq_some'] using hpvd
      obtain ⟨ud, hud, htr⟩ := hpvd'
      obtain ⟨unitu, vu, prevu, huu, hpveq, hvu, hstu⟩ := ih pvu hrp
      obtain ⟨ud', vd, hud', hvd, hstE⟩ := hedg u' vu hvu d hd (fun f => f)
      rw [hud] at hud'
      have heud : ud = ud' := Option.some.inj hud'
      subst heud
      refine ⟨ud, vd, pvu, hud, htr.symm, hvd, ?_⟩
      rw [← htr]
      obtain ⟨unit₁, hu₁, hprop⟩ := hinv u' vu hvu
      rw [huu] at hu₁
      have h12 : unitu = unit₁ := Option.some.inj hu₁
      subst h12
      cases hcu : constUnit unitu with
      | true =>
        rw [hcu] at hprop
        simp only [if_true] at hprop
        have hpu : pvu = vu := by
          rw [hpveq, transfer_const unitu prevu hcu, hprop]
        rw [hpu]
        exact hstE
      | false =>
        rw [hcu] at hprop
        simp only [Bool.false_eq_true, if_false] at hprop
        have hRpv : Rdom pvu := by
          rw [hpveq]
          exact transfer_Rdom unitu prevu hcu
        cases hcd : constUnit ud with
        | true =>
          rw [transfer_const ud pvu hcd, ← transfer_const ud vu hcd]
          exact hstE
        | false =>
          exact stable_trans (transfer_stable ud hcd hRpv hprop hstu) hstE

/-- The merge is a join for the absorption order: anything absorbing both
arguments absorbs their merge (associativity alone suffices). -/
theorem stable_join {x y z : Lto} (h1 : Stable x z) (h2 : Stable y z) :
    Stable (ltoMerge x y) z := by
  unfold Stable at *
  rw [ltoMerge_assoc, h2, h1]

/-- The absorption order is antisymmetric. -/
theorem stable_antisymm {x y : Lto} (h1 : Stable x y) (h2 : Stable y x) :
    x = y := by
  cases x <;> cases y <;> simp_all [Stable, ltoMerge]

/-- Reachability only depends on the membership sets of the dependency
lists. -/
theorem GReaches_congr (g₁ g₂ : LGraph)
    (hd : ∀ u d, d ∈ g₁.depsOf u ↔ d ∈ g₂.depsOf u) :
    ∀ u w, GReaches g₁ u w → GReaches g₂ u w := by
  intro u w h
  induction h with
  | dep h => exact GReaches.dep ((hd _ _).mp h)
  | tail h _ ih => exact GReaches.tail ((hd _ _).mp h) ih

/-- With all edges settled, everything reachable from a stored unit is
stored. -/
theorem reach_stored (g : LGraph) (m : LtoMap)
    (hedg : EdgesOKexc g m (fun _ _ => False)) :
    ∀ u w, GReaches g u w → (∃ v, lookupLto m u = some v) →
      ∃ v, lookupLto m w = some v := by
  intro u w h
  induction h with
  | dep hd =>
    intro hst
    obtain ⟨v, hv⟩ := hst
    obtain ⟨ud, vd, -, hvd, -⟩ := hedg _ v hv _ hd (fun f => f)
    exact ⟨vd, hvd⟩
  | tail hd _ ih =>
    intro hst
    obtain ⟨v, hv⟩ := hst
    obtain ⟨ud, vd, -, hvd, -⟩ := hedg _ v hv _ hd (fun f => f)
    exact ih ⟨vd, hvd⟩

/-- Every unit stored by the root loop was either stored before the loop or
is a processed root or reachable from one. -/
theorem generateAux_src (g : LGraph) (hac : LAcyclic g) (fuel : Nat) :
    ∀ rs map m, MapInv g map → EdgesOKexc g map (fun _ _ => False) →
      generateAux g fuel map rs = some m →
      ∀ w v, lookupLto m w = some v →
        (∃ v₀, lookupLto map w = some v₀) ∨
        ∃ r ∈ rs, w = r ∨ GReaches g r w := by
  intro rs
  induction rs with
  | nil =>
    intro map m hinv hedg heq w v hw
    simp only [generateAux] at heq
    cases heq
    exact Or.inl ⟨v, hw⟩
  | cons r rs' ih =>
    intro map m hinv hedg heq w v hw
    simp only [generateAux] at heq
    cases hu : g.units.get? r with
    | none =>
      have hu' : g.units[r]? = none := by simpa using hu
      simp [hu'] at heq
    | some unit =>
      simp only [hu] at heq
      cases hc : calculate g fuel map r (rootLto unit) with
      | none => simp [hc] at heq
      | some m₁ =>
        simp only [hc] at heq
        obtain ⟨hA1, hB1, -, -, hE1⟩ :=
          calc_ok g hac fuel map r (rootLto unit) m₁ (fun _ _ => False)
            hinv hedg hc
        rcases ih m₁ m hA1 hB1 heq w v hw with ⟨v₀, hv₀⟩ | ⟨r', hr', hor⟩
        · by_cases h2 : lookupLto m₁ w = lookupLto map w
          · rw [h2] at hv₀
            exact Or.inl ⟨v₀, hv₀⟩
          · exact Or.inr ⟨r, List.mem_cons_self r rs', hE1 w h2⟩
        · exact Or.inr ⟨r', List.mem_cons_of_mem r hr', hor⟩

/-- Every unit stored by a successful `generate` is a root or reachable
from one. -/
theorem generate_src (g : LGraph) (hac : LAcyclic g) (fuel : Nat)
    (m : LtoMap) (hgen : generate g fuel = some m) :
    ∀ w v, lookupLto m w = some v →
      ∃ r ∈ g.roots, w = r ∨ GReaches g r w := by
  intro w v hw
  have h0 : MapInv g ([] : LtoMap) := by
    intro u v h
    simp [lookupLto, List.find?] at h
  have h1 : EdgesOKexc g ([] : LtoMap) (fun _ _ => False) := by
    intro u v h
    simp [lookupLto, List.find?] at h
  simp only [generate] at hgen
  rcases generateAux_src g hac fuel g.roots [] m h0 h1 hgen w v hw with
    ⟨v₀, hv₀⟩ | hr
  · simp [lookupLto, List.find?] at hv₀
  · exact hr

/-- Conversely, a successful `generate` stores every root and everything
reachable from a root. -/
theorem generate_cov (g : LGraph) (hac : LAcyclic g) (fuel : Nat)
    (m : LtoMap) (hgen : generate g fuel = some m) :
    ∀ r ∈ g.roots, ∀ w, (w = r ∨ GReaches g r w) →
      ∃ v, lookupLto m w = some v := by
  obtain ⟨-, hB, hroots⟩ := generate_ok g hac fuel m hgen
  intro r hr w hw
  obtain ⟨unit, vr, -, hvr, -⟩ := hroots r hr
  rcases hw with rfl | hreach
  · exact ⟨vr, hvr⟩
  · exact reach_stored g m hB r w hreach ⟨vr, hvr⟩

/-- Dominance propagation through the dependency loop, generic in the
single-unit call. -/
theorem calcDepsF_dom (g : LGraph) (m₂ : LtoMap)
    (calc1 : LtoMap → Nat → Lto → Option LtoMap)
    (hP : ∀ map u pv map', MapInv g map → MapSub map m₂ →
      (∃ unit v₂, g.units.get? u = some unit ∧ lookupLto m₂ u = some v₂ ∧
        Stable (transfer unit pv) v₂) →
      calc1 map u pv = some map' → MapInv g map' ∧ MapSub map' m₂) :
    ∀ ds map pv map', MapInv g map → MapSub map m₂ →
      (∀ d ∈ ds, ∃ ud v₂d, g.units.get? d = some ud ∧
        lookupLto m₂ d = some v₂d ∧ Stable (transfer ud pv) v₂d) →
      calcDepsF calc1 map ds pv = some map' →
      MapInv g map' ∧ MapSub map' m₂ := by
  intro ds
  induction ds with
  | nil =>
    intro map pv map' h1 h2 _ heq
    simp only [calcDepsF] at heq
    cases heq
    exact ⟨h1, h2⟩
  | cons d ds' ih =>
    intro map pv map' h1 h2 hds heq
    simp only [calcDepsF] at heq
    cases hc1 : calc1 map d pv with
    | none => simp [hc1] at heq
    | some m₁ =>
      simp only [hc1] at heq
      obtain ⟨h1', h2'⟩ :=
        hP map d pv m₁ h1 h2 (hds d (List.mem_cons_self d ds')) hc1
      exact ih m₁ pv map' h1' h2'
        (fun e he => hds e (List.mem_cons_of_mem d he)) heq

/-- Dominance: if `m₂` satisfies the map invariant, all its edges are
settled, and the unit being visited is stored in `m₂` at a value absorbing
the pushed requirement, then a successful `calculate` keeps every stored
value of the running map dominated by `m₂`'s. -/
theorem calc_dom (g : LGraph) (m₂ : LtoMap) (hinv₂ : MapInv g m₂)
    (hpf : ∀ u v, lookupLto m₂ u = some v → ∀ d ∈ g.depsOf u,
      ∃ ud vd, g.units.get? d = some ud ∧ lookupLto m₂ d = some vd ∧
        Stable (transfer ud v) vd) :
    ∀ fuel map u pv map', MapInv g map → MapSub map m₂ →
      (∃ unit v₂, g.units.get? u = some unit ∧ lookupLto m₂ u = some v₂ ∧
        Stable (transfer unit pv) v₂) →
      calculate g fuel map u pv = some map' →
      MapInv g map' ∧ MapSub map' m₂ := by
  intro fuel
  induction fuel with
  | zero =>
    intro map u pv map' _ _ _ heq
    exact absurd heq (by simp [calculate])
  | succ fuel ih =>
    intro map u pv map' hinv hsub hcall heq
    obtain ⟨unit', v₂u, hu', hv₂u, hst2⟩ := hcall
    cases hu : g.units.get? u with
    | none =>
      rw [hu] at hu'
      exact absurd hu' (by simp)
    | some unit =>
      rw [hu] at hu'
      have he : unit = unit' := Option.some.inj hu'
      subst he
      simp only [calculate, hu] at heq
      cases hold : lookupLto map u with
      | none =>
        simp only [hold] at heq
        have hkind : (Rdom (transfer unit pv) ∧ Rdom v₂u) ∨
            transfer unit pv = v₂u := by
          obtain ⟨unit₁, hu₁, hprop₂⟩ := hinv₂ u v₂u hv₂u
          rw [hu] at hu₁
          have h12 : unit = unit₁ := Option.some.inj hu₁
          subst h12
          cases hc : constUnit unit with
          | true =>
            rw [hc] at hprop₂
            simp only [if_true] at hprop₂
            exact Or.inr (by rw [transfer_const unit pv hc, ← hprop₂])
          | false =>
            rw [hc] at hprop₂
            simp only [Bool.false_eq_true, if_false] at hprop₂
            exact Or.inl ⟨transfer_Rdom unit pv hc, hprop₂⟩
        have hds : ∀ d ∈ g.depsOf u, ∃ ud v₂d,
            g.units.get? d = some ud ∧ lookupLto m₂ d = some v₂d ∧
            Stable (transfer ud (transfer unit pv)) v₂d := by
          intro d hd
          obtain ⟨ud, v₂d, hud, hv₂d, hstF⟩ := hpf u v₂u hv₂u d hd
          rcases hkind with ⟨hR1, hR2⟩ | hEq
          · cases hcd : constUnit ud with
            | true =>
              refine ⟨ud, v₂d, hud, hv₂d, ?_⟩
              rw [transfer_const ud _ hcd, ← transfer_const ud v₂u hcd]
              exact hstF
            | false =>
              exact ⟨ud, v₂d, hud, hv₂d,
                stable_trans (transfer_stable ud hcd hR1 hR2 hst2) hstF⟩
          · refine ⟨ud, v₂d, hud, hv₂d, ?_⟩
            rw [hEq]
            exact hstF
        have hinv₁ : MapInv g (insertLto map u (transfer unit pv)) := by
          intro w v hw
          by_cases hwu : w = u
          · subst hwu
            rw [lookup_insert_self] at hw
            have hv : v = transfer unit pv := (Option.some.inj hw).symm
            subst hv
            refine ⟨unit, hu, ?_⟩
            cases hc : constUnit unit
            · simp only [hc, Bool.false_eq_true, if_false]
              exact transfer_Rdom unit pv hc
            · simp only [hc, if_true]
              exact transfer_const unit pv hc
          · rw [lookup_insert_ne _ _ _ _ hwu] at hw
            exact hinv w v hw
        have hsub₁ : MapSub (insertLto map u (transfer unit pv)) m₂ := by
          intro w v hw
          by_cases hwu : w = u
          · subst hwu
            rw [lookup_insert_self] at hw
            have hv : v = transfer unit pv := (Option.some.inj hw).symm
            subst hv
            exact ⟨v₂u, hv₂u, hst2⟩
          · rw [lookup_insert_ne _ _ _ _ hwu] at hw
            exact hsub w v hw
        exact calcDepsF_dom g m₂ (calculate g fuel) ih (g.depsOf u) _
          (transfer unit pv) map' hinv₁ hsub₁ hds heq
      | some old =>
        simp only [hold] at heq
        by_cases hres : ltoMerge (transfer unit pv) old = old
        · rw [if_pos hres] at heq
          cases heq
          exact ⟨hinv, hsub⟩
        · rw [if_neg hres] at heq
          obtain ⟨unit₁, hu₁, hprop⟩ := hinv u old hold
          rw [hu] at hu₁
          have h12 : unit = unit₁ := Option.some.inj hu₁
          subst h12
          cases hc : constUnit unit with
          | true =>
            rw [hc] at hprop
            simp only [if_true] at hprop
            exact absurd
              (by rw [transfer_const unit pv hc, ← hprop, ltoMerge_idem])
              hres
          | false =>
            rw [hc] at hprop
            simp only [Bool.false_eq_true, if_false] at hprop
            have hRl : Rdom (transfer unit pv) := transfer_Rdom unit pv hc
            obtain ⟨v₂', hv₂', hsold⟩ := hsub u old hold
            rw [hv₂u] at hv₂'
            have hv2e : v₂u = v₂' := Option.some.inj hv₂'
            subst hv2e
            have hstNew : Stable (ltoMerge (transfer unit pv) old) v₂u :=
              stable_join hst2 hsold
            have hRv₂ : Rdom v₂u := by
              obtain ⟨unit₂, hu₂, hprop₂⟩ := hinv₂ u v₂u hv₂u
              rw [hu] at hu₂
              have h13 : unit = unit₂ := Option.some.inj hu₂
              subst h13
              rw [hc] at hprop₂
              simpa using hprop₂
            have hRnew : Rdom (ltoMerge (transfer unit pv) old) :=
              Rdom_merge hRl hprop
            have hds : ∀ d ∈ g.depsOf u, ∃ ud v₂d,
                g.units.get? d = some ud ∧ lookupLto m₂ d = some v₂d ∧
                Stable (transfer ud (ltoMerge (transfer unit pv) old)) v₂d := by
              intro d hd
              obtain ⟨ud, v₂d, hud, hv₂d, hstF⟩ := hpf u v₂u hv₂u d hd
              cases hcd : constUnit ud with
              | true =>
                refine ⟨ud, v₂d, hud, hv₂d, ?_⟩
                rw [transfer_const ud _ hcd, ← transfer_const ud v₂u hcd]
                exact hstF
              | false =>
                exact ⟨ud, v₂d, hud, hv₂d,
                  stable_trans (transfer_stable ud hcd hRnew hRv₂ hstNew) hstF⟩
            have hinv₁ : MapInv g
                (insertLto map u (ltoMerge (transfer unit pv) old)) := by
              intro w v hw
              by_cases hwu : w = u
              · subst hwu
                rw [lookup_insert_self] at hw
                have hv : v = ltoMerge (transfer unit pv) old :=
                  (Option.some.inj hw).symm
                subst hv
                refine ⟨unit, hu, ?_⟩
                simp only [hc, Bool.false_eq_true, if_false]
                exact hRnew
              · rw [lookup_insert_ne _ _ _ _ hwu] at hw
                exact hinv w v hw
            have hsub₁ : MapSub
                (insertLto map u (ltoMerge (transfer unit pv) old)) m₂ := by
              intro w v hw
              by_cases hwu : w = u
              · subst hwu
                rw [lookup_insert_self] at hw
                have hv : v = ltoMerge (transfer unit pv) old :=
                  (Option.some.inj hw).symm
                subst hv
                exact ⟨v₂u, hv₂u, hstNew⟩
              · rw [lookup_insert_ne _ _ _ _ hwu] at hw
                exact hsub w v hw
            exact calcDepsF_dom g m₂ (calculate g fuel) ih (g.depsOf u) _
              (ltoMerge (transfer unit pv) old) map' hinv₁ hsub₁ hds heq

/-- Dominance through the root loop. -/
theorem generateAux_dom (g : LGraph) (m₂ : LtoMap) (hinv₂ : MapInv g m₂)
    (hpf : ∀ u v, lookupLto m₂ u = some v → ∀ d ∈ g.depsOf u,
      ∃ ud vd, g.units.get? d = some ud ∧ lookupLto m₂ d = some vd ∧
        Stable (transfer ud v) vd) (fuel : Nat) :
    ∀ rs map m, MapInv g map → MapSub map m₂ →
      (∀ r ∈ rs, ∃ unit v₂, g.units.get? r = some unit ∧
        lookupLto m₂ r = some v₂ ∧ Stable (transfer unit (rootLto unit)) v₂) →
      generateAux g fuel map rs = some m →
      MapInv g m ∧ MapSub m m₂ := by
  intro rs
  induction rs with
  | nil =>
    intro map m h1 h2 _ heq
    simp only [generateAux] at heq
    cases heq
    exact ⟨h1, h2⟩
  | cons r rs' ih =>
    intro map m h1 h2 hrs heq
    simp only [generateAux] at heq
    cases hu : g.units.get? r with
    | none =>
      have hu' : g.units[r]? = none := by simpa using hu
      simp [hu'] at heq
    | some unit =>
      simp only [hu] at heq
      cases hc : calculate g fuel map r (rootLto unit) with
      | none => simp [hc] at heq
      | some m₁ =>
        simp only [hc] at heq
        obtain ⟨unit', v₂, hu₂, hv₂, hst₂⟩ :=
          hrs r (List.mem_cons_self r rs')
        rw [hu] at hu₂
        have he : unit = unit' := Option.some.inj hu₂
        subst he
        obtain ⟨h1', h2'⟩ :=
          calc_dom g m₂ hinv₂ hpf fuel map r (rootLto unit) m₁ h1 h2
            ⟨unit, v₂, hu, hv₂, hst₂⟩ hc
        exact ih m₁ m h1' h2'
          (fun r' hr' => hrs r' (List.mem_cons_of_mem r hr')) heq

/-- Order independence of the propagator on acyclic graphs: two runs over
graphs with the same units, the same dependency edge sets (in any order)
and the same root set (in any order) store the same value at every unit. -/
theorem generate_order_ind (g₁ g₂ : LGraph) (hu : g₁.units = g₂.units)
    (hd : ∀ u d, d ∈ g₁.depsOf u ↔ d ∈ g₂.depsOf u)
    (hriff : ∀ r, r ∈ g₁.roots ↔ r ∈ g₂.roots)
    (hac : LAcyclic g₁) (fuel₁ fuel₂ : Nat) (m₁ m₂ : LtoMap)
    (h1 : generate g₁ fuel₁ = some m₁) (h2 : generate g₂ fuel₂ = some m₂) :
    ∀ u, lookupLto m₁ u = lookupLto m₂ u := by
  have hac₂ : LAcyclic g₂ := by
    intro u hu2
    exact hac u (GReaches_congr g₂ g₁ (fun a b => (hd a b).symm) u u hu2)
  obtain ⟨hinv₁f, hedg₁f, hroots₁⟩ := generate_ok g₁ hac fuel₁ m₁ h1
  obtain ⟨hinv₂f, hedg₂f, hroots₂⟩ := generate_ok g₂ hac₂ fuel₂ m₂ h2
  have hempinv₁ : MapInv g₁ ([] : LtoMap) := by
    intro u v h
    simp [lookupLto, List.find?] at h
  have hempinv₂ : MapInv g₂ ([] : LtoMap) := by
    intro u v h
    simp [lookupLto, List.find?] at h
  have hempsub : ∀ m : LtoMap, MapSub ([] : LtoMap) m := by
    intro m u v h
    simp [lookupLto, List.find?] at h
  have hinv₂' : MapInv g₁ m₂ := by
    intro w v hw
    obtain ⟨unit, hw2, hp⟩ := hinv₂f w v hw
    refine ⟨unit, ?_, hp⟩
    rw [hu]
    exact hw2
  have hpf₂ : ∀ w v, lookupLto m₂ w = some v → ∀ d ∈ g₁.depsOf w,
      ∃ ud vd, g₁.units.get? d = some ud ∧ lookupLto m₂ d = some vd ∧
        Stable (transfer ud v) vd := by
    intro w v hw d hdw
    obtain ⟨ud, vd, ha, hb, hcst⟩ :=
      hedg₂f w v hw d ((hd w d).mp hdw) (fun f => f)
    refine ⟨ud, vd, ?_, hb, hcst⟩
    rw [hu]
    exact ha
  have hroots₂' : ∀ r ∈ g₁.roots, ∃ unit v₂, g₁.units.get? r = some unit ∧
      lookupLto m₂ r = some v₂ ∧ Stable (transfer unit (rootLto unit)) v₂ := by
    intro r hr
    obtain ⟨unit, v₂, ha, hb, hcst⟩ := hroots₂ r ((hriff r).mp hr)
    refine ⟨unit, v₂, ?_, hb, hcst⟩
    rw [hu]
    exact ha
  have hinv₁' : MapInv g₂ m₁ := by
    intro w v hw
    obtain ⟨unit, hw1, hp⟩ := hinv₁f w v hw
    refine ⟨unit, ?_, hp⟩
    rw [← hu]
    exact hw1
  have hpf₁ : ∀ w v, lookupLto m₁ w = some v → ∀ d ∈ g₂.depsOf w,
      ∃ ud vd, g₂.units.get? d = some ud ∧ lookupLto m₁ d = some vd ∧
        Stable (transfer ud v) vd := by
    intro w v hw d hdw
    obtain ⟨ud, vd, ha, hb, hcst⟩ :=
      hedg₁f w v hw d ((hd w d).mpr hdw) (fun f => f)
    refine ⟨ud, vd, ?_, hb, hcst⟩
    rw [← hu]
    exact ha
  have hroots₁' : ∀ r ∈ g₂.roots, ∃ unit v₂, g₂.units.get? r = some unit ∧
      lookupLto m₁ r = some v₂ ∧ Stable (transfer unit (rootLto unit)) v₂ := by
    intro r hr
    obtain ⟨unit, v₂, ha, hb, hcst⟩ := hroots₁ r ((hriff r).mpr hr)
    refine ⟨unit, v₂, ?_, hb, hcst⟩
    rw [← hu]
    exact ha
  have hgen1 := h1
  have hgen2 := h2
  simp only [generate] at hgen1 hgen2
  have hsub₁₂ : MapSub m₁ m₂ :=
    (generateAux_dom g₁ m₂ hinv₂' hpf₂ fuel₁ g₁.roots [] m₁ hempinv₁
      (hempsub m₂) hroots₂' hgen1).2
  have hsub₂₁ : MapSub m₂ m₁ :=
    (generateAux_dom g₂ m₁ hinv₁' hpf₁ fuel₂ g₂.roots [] m₂ hempinv₂
      (hempsub m₁) hroots₁' hgen2).2
  intro w
  cases hw1 : lookupLto m₁ w with
  | some v₁ =>
    obtain ⟨v₂, hv₂, hs12⟩ := hsub₁₂ w v₁ hw1
    obtain ⟨v₁', hv₁', hs21⟩ := hsub₂₁ w v₂ hv₂
    rw [hw1] at hv₁'
    have he : v₁ = v₁' := Option.some.inj hv₁'
    subst he
    rw [hv₂, stable_antisymm hs12 hs21]
  | none =>
    cases hw2 : lookupLto m₂ w with
    | none => rfl
    | some v₂ =>
      exfalso
      obtain ⟨r, hrr, hor⟩ := generate_src g₂ hac₂ fuel₂ m₂ h2 w v₂ hw2
      have hrr1 : r ∈ g₁.roots := (hriff r).mpr hrr
      have hor1 : w = r ∨ GReaches g₁ r w :=
        hor.imp id (GReaches_congr g₂ g₁ (fun a b => (hd a b).symm) r w)
      obtain ⟨v, hv⟩ := generate_cov g₁ hac fuel₁ m₁ h1 r hrr1 w hor1
      rw [hw1] at hv
      exact Option.noConfusion hv

theorem g4p_roots : ∀ r, r ∈ g4.roots ↔ r ∈ g4p.roots := by
  intro r
  simp [g4, g4p, or_comm]

/-- C4 (amended): on an acyclic unit graph, a successful `generate` (i)
stores for every unit reachable by a root path a value that absorbs that
path's pushed requirement (`merge(pathValue, stored) = stored`) — an upper
bound of the per-path contributions, though, as `C4_counterexample` shows,
not in general equal to their merge, so the claim's "equals the least upper
bound over all paths" is too strong — and (ii) is independent of the
traversal order: any run over the same units with the same dependency edge
sets and the same root set, in any order, stores the same value at every
unit. -/
theorem C4_propagation (g : LGraph) (hac : LAcyclic g) (fuel : Nat)
    (m : LtoMap) (hgen : generate g fuel = some m) :
    (∀ u π pv, RootPath g u π → rootPathValue g π = some pv →
      ∃ v, lookupLto m u = some v ∧ ltoMerge pv v = v) ∧
    (∀ (g₂ : LGraph) (fuel₂ : Nat) (m₂ : LtoMap),
      g.units = g₂.units →
      (∀ u d, d ∈ g.depsOf u ↔ d ∈ g₂.depsOf u) →
      (∀ r, r ∈ g.roots ↔ r ∈ g₂.roots) →
      generate g₂ fuel₂ = some m₂ →
      ∀ u, lookupLto m u = lookupLto m₂ u) := by
  constructor
  · intro u π pv hp hpv
    obtain ⟨hinv, hedg, hroots⟩ := generate_ok g hac fuel m hgen
    obtain ⟨unit, v, prev, -, -, hv, hst⟩ :=
      path_stable g hac m hinv hedg hroots u π hp pv hpv
    exact ⟨v, hv, hst⟩
  · intro g₂ fuel₂ m₂ hu hd hriff hgen₂
    exact generate_order_ind g g₂ hu hd hriff hac fuel fuel₂ m m₂ hgen hgen₂

theorem C4_propagation_witness :
    (∃ v, lookupLto ((generate g4 10).getD []) 3 = some v ∧
      ltoMerge Lto.onlyObject v = v) ∧
    lookupLto ((generate g4 10).getD []) 3 =
      lookupLto ((generate g4p 10).getD []) 3 := by
  obtain ⟨h1, h2⟩ :=
    C4_propagation g4 g4_acyclic 10 ((generate g4 10).getD []) rfl
  refine ⟨h1 3 [0, 2, 3] Lto.onlyObject
    (RootPath.step (RootPath.step (RootPath.root (by decide)) (by decide))
      (by decide)) rfl, ?_⟩
  exact h2 g4p 10 ((generate g4p 10).getD []) rfl (fun u d => Iff.rfl)
    g4p_roots rfl 3
